import Mathlib

/-!
Verification of the binding-resolution and macro-execution engine of the
PRO SUITE input-automation program (single Python source file).

Strings are embedded as `List Char`; Python `str.upper` is modelled on the
ASCII letters (the only characters relevant to hotkey names); Python
`str.strip` is modelled with `Char.isWhitespace`.  Machine timing values are
Python ints, embedded as `Int`.  The side-effecting macro bodies are embedded
as pure trace generators: each synthetic-output call or sleep becomes one
event in a `List Ev`.
-/

namespace ProSuite

/-- ASCII model of Python `str.upper`, character by character. -/
def upChar : Char → Char
  | 'a' => 'A' | 'b' => 'B' | 'c' => 'C' | 'd' => 'D' | 'e' => 'E'
  | 'f' => 'F' | 'g' => 'G' | 'h' => 'H' | 'i' => 'I' | 'j' => 'J'
  | 'k' => 'K' | 'l' => 'L' | 'm' => 'M' | 'n' => 'N' | 'o' => 'O'
  | 'p' => 'P' | 'q' => 'Q' | 'r' => 'R' | 's' => 'S' | 't' => 'T'
  | 'u' => 'U' | 'v' => 'V' | 'w' => 'W' | 'x' => 'X' | 'y' => 'Y'
  | 'z' => 'Z' | c => c

/-- `str.upper` on an embedded string. -/
def upper (l : List Char) : List Char := l.map upChar

/-- Left part of `str.strip`. -/
def trimL (l : List Char) : List Char := l.dropWhile fun c => c.isWhitespace

/-- `str.strip`: drop whitespace from both ends. -/
def trim (l : List Char) : List Char :=
  ((trimL l).reverse.dropWhile fun c => c.isWhitespace).reverse

/-- Embedded string literal. -/
def STR (s : String) : List Char := s.data

/-- The modifier set of a trigger (Python `frozenset` over the four
canonical modifier names, one Boolean per name). -/
structure Mods where
  ctrl : Bool
  alt : Bool
  shift : Bool
  win : Bool
deriving DecidableEq, Repr

def noMods : Mods := ⟨false, false, false, false⟩

/-- Trigger kind: the `"kb"` / `"gp"` tag returned by `parse_hotkey`. -/
inductive HKind where
  | kb
  | gp
deriving DecidableEq, Repr

/-- A parsed trigger: `(kind, modifier set, symbol)`. -/
structure Trigger where
  kind : HKind
  mods : Mods
  sym : List Char
deriving DecidableEq, Repr

/-- `is_gamepad_hotkey`: strip, upper, test for the `GP:` marker. -/
def is_gamepad_hotkey (s : List Char) : Bool :=
  (STR "GP:").isPrefixOf (upper (trim s))

/-- Python `s.split(":", 1)[1]`: everything after the first colon
(the caller guarantees a colon is present). -/
def afterFirstColon : List Char → List Char
  | [] => []
  | c :: r => if c = ':' then r else afterFirstColon r

/-- `s.replace("-", "+")`, character by character. -/
def dashToPlus (c : Char) : Char := if c = '-' then '+' else c

/-- The normalized token list of a keyboard hotkey string (assumed already
stripped): replace `-` by `+`, split on `+`, strip each piece, drop empty
pieces, upper-case the survivors. -/
def hotkeyParts (s : List Char) : List (List Char) :=
  ((((s.map dashToPlus).splitOn '+').map trim).filter (fun p => !p.isEmpty)).map upper

/-- One step of the modifier-classification loop of `parse_hotkey`. -/
def modStep (mk : Mods × List Char) (p : List Char) : Mods × List Char :=
  if p = STR "CONTROL" ∨ p = STR "CTRL" then ({ mk.1 with ctrl := true }, mk.2)
  else if p = STR "ALT" then ({ mk.1 with alt := true }, mk.2)
  else if p = STR "SHIFT" then ({ mk.1 with shift := true }, mk.2)
  else if p = STR "WIN" ∨ p = STR "WINDOWS" ∨ p = STR "SUPER" ∨ p = STR "META" then
    ({ mk.1 with win := true }, mk.2)
  else (mk.1, p)

/-- `parse_hotkey`: empty input gives the null keyboard trigger; a `GP:`
input gives a controller trigger with the remainder after the colon,
stripped and upper-cased; otherwise the token list is folded, each
recognized modifier name is collected and the last unrecognized token
becomes the symbol, falling back to the last token when every token is a
modifier name. -/
def parse_hotkey (s0 : List Char) : Trigger :=
  let s := trim s0
  if s = [] then ⟨.kb, noMods, []⟩
  else if is_gamepad_hotkey s then ⟨.gp, noMods, upper (trim (afterFirstColon s))⟩
  else
    let parts := hotkeyParts s
    let mk := parts.foldl modStep (noMods, [])
    let key := if mk.2 = [] ∧ parts ≠ [] then parts.getLastD [] else mk.2
    ⟨.kb, mk.1, key⟩

/-- Python `"+".join`. -/
def joinPlus : List (List Char) → List Char
  | [] => []
  | [p] => p
  | p :: ps => p ++ '+' :: joinPlus ps

/-- The modifier pieces of `format_hotkey`, in the fixed order
Ctrl, Alt, Shift, Win. -/
def modPieces (mods : Mods) : List (List Char) :=
  (if mods.ctrl then [STR "Ctrl"] else []) ++
  (if mods.alt then [STR "Alt"] else []) ++
  (if mods.shift then [STR "Shift"] else []) ++
  (if mods.win then [STR "Win"] else [])

/-- `format_hotkey`: render the modifiers in the fixed order Ctrl, Alt,
Shift, Win, then the upper-cased key when nonempty, joined with `+`. -/
def format_hotkey (mods : Mods) (key : List Char) : List Char :=
  let k := upper key
  joinPlus (modPieces mods ++ (if k.isEmpty then [] else [k]))

/-- The well-formedness facts true of every keyboard symbol `parse_hotkey`
can produce: no separator characters, upper-case normal form, and no
whitespace at either end. -/
def goodKey (k : List Char) : Prop :=
  ('+' ∉ k) ∧ ('-' ∉ k) ∧ upper k = k
  ∧ (∀ c, k.head? = some c → c.isWhitespace = false)
  ∧ (∀ c, k.getLast? = some c → c.isWhitespace = false)

/-- Kind-aware rendering of a full trigger.  The keyboard arm is the
source's `format_hotkey`.  Modelled from the spec: the source has no
kind-aware formatter, and the spec states that a Controller trigger
renders as the bare symbol with no modifier prefix (as the source's
`display_hotkey` does for a raw `GP:` binding). -/
def formatTrigger (t : Trigger) : List Char :=
  match t.kind with
  | .gp => t.sym
  | .kb => format_hotkey t.mods t.sym

/-- The fixed action vocabulary of the engine. -/
inductive Act where
  | toggle_all
  | stall
  | speedflip
  | straightdash
  | turningdash
  | emergency
  | exit
deriving DecidableEq, Repr

/-- The declaration order of the `actions` dict in `_maybe_trigger_kb`
and `_maybe_trigger_gp`. -/
def actionOrder : List Act :=
  [.toggle_all, .stall, .speedflip, .straightdash, .turningdash, .emergency, .exit]

/-- Position of an action in `actionOrder`. -/
def orderPos : Act → Nat
  | .toggle_all => 0
  | .stall => 1
  | .speedflip => 2
  | .straightdash => 3
  | .turningdash => 4
  | .emergency => 5
  | .exit => 6

/-- The actions exempt from the global-enable gate:
`action not in ("toggle_all","emergency","exit")`. -/
def isAlways (a : Act) : Bool :=
  a == .toggle_all || a == .emergency || a == .exit

/-- The hold-loop actions: `action in ("straightdash","turningdash")`. -/
def isHold (a : Act) : Bool :=
  a == .straightdash || a == .turningdash

/-- The configuration snapshot visible to the trigger scan. -/
structure EngineCfg where
  global_enabled : Bool
  features : Act → Bool
  hotkeys : Act → List Char

/-- `set(mods_req).issubset(self._kb_mods)`. -/
def subMods (req cur : Mods) : Bool :=
  (!req.ctrl || cur.ctrl) && (!req.alt || cur.alt) &&
  (!req.shift || cur.shift) && (!req.win || cur.win)

/-- The keyboard match condition for one action: its parsed trigger is a
keyboard trigger with a nonempty symbol equal (case-insensitively) to the
pressed key name, whose required modifiers are a subset of the live
modifier set. -/
def matchesKb (cfg : EngineCfg) (a : Act) (name : List Char) (kbMods : Mods) : Bool :=
  let t := parse_hotkey (cfg.hotkeys a)
  t.kind == .kb && !t.sym.isEmpty && upper name == upper t.sym && subMods t.mods kbMods

/-- The controller match condition for one action: its parsed trigger is a
controller trigger with a nonempty symbol, and the incoming token equals
`("GP:" + btn).upper()`. -/
def matchesGp (cfg : EngineCfg) (a : Act) (tok : List Char) : Bool :=
  let t := parse_hotkey (cfg.hotkeys a)
  t.kind == .gp && !t.sym.isEmpty && tok == upper (STR "GP:" ++ t.sym)

/-- The scan loop of `_maybe_trigger_kb`: skip non-matching actions
(`continue`); on the first match apply the global-enable gate and the
hold-loop re-entrancy gate — each failed gate returns with nothing
dispatched — otherwise dispatch that action. -/
def scanKbFrom (cfg : EngineCfg) (running : Act → Bool) (name : List Char)
    (kbMods : Mods) : List Act → Option Act
  | [] => none
  | a :: rest =>
    let t := parse_hotkey (cfg.hotkeys a)
    if t.kind ≠ .kb ∨ t.sym = [] then scanKbFrom cfg running name kbMods rest
    else if upper name ≠ upper t.sym then scanKbFrom cfg running name kbMods rest
    else if ¬ subMods t.mods kbMods then scanKbFrom cfg running name kbMods rest
    else if ¬ isAlways a ∧ ¬ cfg.global_enabled then none
    else if isHold a ∧ running a then none
    else some a

/-- `_maybe_trigger_kb`: returns the dispatched action, `none` when
nothing is dispatched (capture mode suppresses everything). -/
def maybe_trigger_kb (cfg : EngineCfg) (capture : Bool) (running : Act → Bool)
    (name : List Char) (kbMods : Mods) : Option Act :=
  if capture then none else scanKbFrom cfg running name kbMods actionOrder

/-- The scan loop of `_maybe_trigger_gp`. -/
def scanGpFrom (cfg : EngineCfg) (running : Act → Bool) (tok : List Char) :
    List Act → Option Act
  | [] => none
  | a :: rest =>
    let t := parse_hotkey (cfg.hotkeys a)
    if t.kind ≠ .gp ∨ t.sym = [] then scanGpFrom cfg running tok rest
    else if tok ≠ upper (STR "GP:" ++ t.sym) then scanGpFrom cfg running tok rest
    else if ¬ isAlways a ∧ ¬ cfg.global_enabled then none
    else if isHold a ∧ running a then none
    else some a

/-- `_maybe_trigger_gp`. -/
def maybe_trigger_gp (cfg : EngineCfg) (capture : Bool) (running : Act → Bool)
    (tok : List Char) : Option Act :=
  if capture then none else scanGpFrom cfg running tok actionOrder

/-- One observable event of a macro body: a synthetic key or mouse edge, a
sleep (milliseconds), a feedback beep, a kill-flag write, or a hold-loop
registry write. -/
inductive Ev where
  | keyDown (k : String)
  | keyUp (k : String)
  | mouseRight (down : Bool)
  | sleep (ms : Int)
  | beep (hi : Bool)
  | setKill (b : Bool)
  | setRunning (a : Act) (b : Bool)
deriving DecidableEq, Repr

/-- The timing parameters (Python ints, milliseconds). -/
structure Timings where
  stall_click_ms : Int
  sf_a_hold_ms : Int
  sf_wait_before_jump_ms : Int
  sf_s_hold_ms : Int
  sf_d_hold_ms : Int
  sf_airroll_time_ms : Int
  sf_shift_start_ms : Int
  sf_shift_duration_ms : Int
  sf_prejump_ms : Int
  sf_click_down_ms : Int
  sf_between_jumps_ms : Int
  sf_post_shift_ms : Int
  sd_click_down_ms : Int
  sd_between_clicks_ms : Int
  td_pre_ms : Int
  td_click_down_ms : Int
  td_between_clicks_ms : Int
deriving DecidableEq, Repr

/-- The `DEFAULTS["timings"]` table of the source. -/
def defaultTimings : Timings :=
  ⟨3, 80, 20, 690, 720, 799, 840, 130, 20, 20, 40, 50, 15, 25, 10, 15, 25⟩

/-- `_act_stall`: re-check both flags, then Q+D hold around a timed right
click (`max(0,t)` clamp on the click duration). -/
def act_stall (cfg : EngineCfg) (tm : Timings) : List Ev :=
  if ¬ cfg.global_enabled then []
  else if ¬ cfg.features .stall then []
  else
    [.keyDown "Q", .keyDown "D", .mouseRight true,
     .sleep (max 0 tm.stall_click_ms), .mouseRight false, .keyUp "D", .keyUp "Q"]

/-- `_act_speedflip` as a trace: the exact sequence of key/mouse edges and
sleeps, including the `s_dur < d_dur` branch, the `time_until_e > 0` and
`time_until_shift > 0` clamps. -/
def act_speedflip (cfg : EngineCfg) (tm : Timings) : List Ev :=
  if ¬ cfg.global_enabled then []
  else if ¬ cfg.features .speedflip then []
  else
    [.keyDown "I", .keyDown "A", .sleep tm.sf_a_hold_ms, .keyUp "A",
     .sleep tm.sf_wait_before_jump_ms,
     .keyUp "W", .keyUp "S", .keyUp "E", .keyUp "Q",
     .keyDown "E", .keyDown "W", .sleep tm.sf_prejump_ms,
     .mouseRight true, .sleep tm.sf_click_down_ms, .mouseRight false,
     .sleep tm.sf_between_jumps_ms,
     .mouseRight true, .sleep tm.sf_click_down_ms, .mouseRight false,
     .keyUp "W", .keyDown "S", .keyDown "D"] ++
    (if tm.sf_s_hold_ms < tm.sf_d_hold_ms then
      [.sleep tm.sf_s_hold_ms, .keyUp "S", .keyDown "W",
       .sleep (tm.sf_d_hold_ms - tm.sf_s_hold_ms), .keyUp "D"]
    else
      [.sleep tm.sf_d_hold_ms, .keyUp "D",
       .sleep (tm.sf_s_hold_ms - tm.sf_d_hold_ms), .keyUp "S", .keyDown "W"]) ++
    (let maxHold := max tm.sf_s_hold_ms tm.sf_d_hold_ms
     let timeUntilE := tm.sf_airroll_time_ms - maxHold
     let timeUntilShift := tm.sf_shift_start_ms - max tm.sf_airroll_time_ms maxHold
     (if timeUntilE > 0 then [.sleep timeUntilE] else []) ++ [.keyUp "E"] ++
     (if timeUntilShift > 0 then [.sleep timeUntilShift] else []) ++
     [.keyDown "LShift", .sleep tm.sf_shift_duration_ms, .keyUp "LShift",
      .sleep tm.sf_post_shift_ms, .keyUp "I"])

/-- The per-iteration observation of a hold loop: the kill flag, whether
the trigger is still physically held, and the live configuration flags. -/
structure HEnv where
  kill : Bool
  holdActive : Bool
  global_enabled : Bool
  feature : Bool
deriving DecidableEq, Repr

/-- One body cycle of `_act_straightdash_hold`. -/
def sdCycle (tm : Timings) : List Ev :=
  [.keyDown "W", .keyDown "Q", .mouseRight true, .sleep tm.sd_click_down_ms,
   .mouseRight false, .sleep tm.sd_between_clicks_ms, .mouseRight true,
   .sleep tm.sd_click_down_ms, .mouseRight false, .sleep 1]

/-- The `while` loop of `_act_straightdash_hold`: each iteration reads one
`HEnv`; the loop exits when the kill flag is set, the trigger is no longer
held, the live flag check breaks, or the observation stream ends (the
trigger is never held again). -/
def sdLoop (tm : Timings) : List HEnv → List Ev
  | [] => []
  | e :: rest =>
    if e.kill ∨ ¬ e.holdActive then []
    else if ¬ e.global_enabled ∨ ¬ e.feature then []
    else sdCycle tm ++ sdLoop tm rest

/-- `_act_straightdash_hold`: mark the registry, run the loop, and on any
exit run the `finally` block (release Q and W, clear the registry). -/
def act_straightdash_hold (tm : Timings) (envs : List HEnv) : List Ev :=
  [.setRunning .straightdash true] ++ sdLoop tm envs ++
  [.keyUp "Q", .keyUp "W", .setRunning .straightdash false]

/-- One body cycle of `_act_turningdash_hold`. -/
def tdCycle (tm : Timings) : List Ev :=
  [.keyDown "W", .keyDown "Q", .keyDown "D", .sleep tm.td_pre_ms, .keyUp "D",
   .keyDown "A", .mouseRight true, .sleep tm.td_click_down_ms, .mouseRight false,
   .sleep tm.td_between_clicks_ms, .mouseRight true, .sleep tm.td_click_down_ms,
   .mouseRight false, .keyUp "A", .sleep 1]

/-- The `while` loop of `_act_turningdash_hold`. -/
def tdLoop (tm : Timings) : List HEnv → List Ev
  | [] => []
  | e :: rest =>
    if e.kill ∨ ¬ e.holdActive then []
    else if ¬ e.global_enabled ∨ ¬ e.feature then []
    else tdCycle tm ++ tdLoop tm rest

/-- `_act_turningdash_hold` with its `finally` block (release A, D, Q, W,
clear the registry). -/
def act_turningdash_hold (tm : Timings) (envs : List HEnv) : List Ev :=
  [.setRunning .turningdash true] ++ tdLoop tm envs ++
  [.keyUp "A", .keyUp "D", .keyUp "Q", .keyUp "W", .setRunning .turningdash false]

/-- `_release_all_outputs`: unconditional key-up sweep over every key the
engine can press, plus a mouse-right-button-up. -/
def release_all_outputs : List Ev :=
  [.keyUp "W", .keyUp "A", .keyUp "S", .keyUp "D", .keyUp "Q", .keyUp "E",
   .keyUp "I", .keyUp "LShift", .mouseRight false]

/-- `_act_emergency`: set the kill flag, sweep all outputs, beep low,
pause 150 ms, clear the kill flag. -/
def act_emergency : List Ev :=
  [.setKill true] ++ release_all_outputs ++ [.beep false, .sleep 150, .setKill false]

/-- Fold step for the currently-held synthetic key set. -/
def heldStep (held : String → Bool) : Ev → (String → Bool)
  | .keyDown k => fun x => if x = k then true else held x
  | .keyUp k => fun x => if x = k then false else held x
  | _ => held

/-- The held-key set after a trace runs from a given held-key set. -/
def heldAfter (held : String → Bool) (tr : List Ev) : String → Bool :=
  tr.foldl heldStep held

/-- Fold step for the kill flag. -/
def killStep (b : Bool) : Ev → Bool
  | .setKill v => v
  | _ => b

/-- The kill flag after a trace runs. -/
def killAfter (b : Bool) (tr : List Ev) : Bool :=
  tr.foldl killStep b

/-- Fold step for the hold-loop registry. -/
def runningStep (r : Act → Bool) : Ev → (Act → Bool)
  | .setRunning a v => fun x => if x = a then v else r x
  | _ => r

/-- The hold-loop registry after a trace runs. -/
def runningAfter (r : Act → Bool) (tr : List Ev) : Act → Bool :=
  tr.foldl runningStep r

/-- `keyUp k` recognizer. -/
def isKeyUp (k : String) : Ev → Bool
  | .keyUp x => x == k
  | _ => false

/-- `keyDown k` recognizer. -/
def isKeyDown (k : String) : Ev → Bool
  | .keyDown x => x == k
  | _ => false

/-- The total sleep time of the maximal run of consecutive sleeps
immediately preceding the first event satisfying `p` (`none` when no
event satisfies `p`). -/
def waitBefore (p : Ev → Bool) : List Ev → Int → Option Int
  | [], _ => none
  | e :: rest, acc =>
    if p e then some acc
    else
      match e with
      | .sleep n => waitBefore p rest (acc + n)
      | _ => waitBefore p rest 0

/-- The part of a trace strictly after the first event satisfying `p`. -/
def afterFirst (p : Ev → Bool) (tr : List Ev) : List Ev :=
  (tr.dropWhile (fun e => !p e)).tail

/-- A fully enabled configuration snapshot (all flags on); the bindings
are irrelevant to the macro bodies. -/
def cfgAllOn : EngineCfg := ⟨true, fun _ => true, fun _ => []⟩

/-- The default timings with `sf_airroll_time_ms` lowered to 500. -/
def tmAir500 : Timings := { defaultTimings with sf_airroll_time_ms := 500 }

/-- A configuration in which `stall` and `speedflip` share the keyboard
trigger `H` and `straightdash` and `turningdash` share the controller
trigger `GP:A`. -/
def cfgShared : EngineCfg :=
  ⟨true, fun _ => true, fun a =>
    match a with
    | .stall => STR "H"
    | .speedflip => STR "H"
    | .straightdash => STR "GP:A"
    | .turningdash => STR "GP:A"
    | _ => []⟩

/-- A configuration with only `straightdash` bound, to its default `V`. -/
def cfgSdOnly : EngineCfg :=
  ⟨true, fun _ => true, fun a => match a with | .straightdash => STR "V" | _ => []⟩

/-- Registry state in which only `straightdash` is running. -/
def runSd : Act → Bool := fun a => match a with | .straightdash => true | _ => false

/-- A configuration in which `straightdash` is bound to `V` but its
feature flag is off, everything else on. -/
def cfgSdFeatOff : EngineCfg :=
  ⟨true, fun a => match a with | .straightdash => false | _ => true,
   fun a => match a with | .straightdash => STR "V" | _ => []⟩

/-- A fully populated default-bindings configuration with the global
flag off. -/
def cfgGlobalOff : EngineCfg :=
  ⟨false, fun _ => true, fun a =>
    match a with
    | .toggle_all => STR "F6"
    | .stall => STR "F"
    | .speedflip => STR "H"
    | .straightdash => STR "V"
    | .turningdash => STR "N"
    | .emergency => STR "L"
    | .exit => STR "F10"⟩

/-- An all-empty binding table. -/
def cfgUnbound : EngineCfg := ⟨true, fun _ => true, fun _ => STR "   "⟩

/-- The recognized-modifier-name test: exactly the names classified as
modifiers by the token loop of `parse_hotkey`. -/
def isModName (p : List Char) : Bool :=
  decide (p = STR "CONTROL" ∨ p = STR "CTRL") || decide (p = STR "ALT") ||
  decide (p = STR "SHIFT") ||
  decide (p = STR "WIN" ∨ p = STR "WINDOWS" ∨ p = STR "SUPER" ∨ p = STR "META")

/-- Whether the canonical modifier named by the token `p` is present in a
modifier set. -/
def namedModIn (p : List Char) (m : Mods) : Bool :=
  if p = STR "CONTROL" ∨ p = STR "CTRL" then m.ctrl
  else if p = STR "ALT" then m.alt
  else if p = STR "SHIFT" then m.shift
  else if p = STR "WIN" ∨ p = STR "WINDOWS" ∨ p = STR "SUPER" ∨ p = STR "META" then m.win
  else false

/-- C2: in SpeedFlip the effective wait before the E release is
`max 0 (airroll_duration − max(s_duration, d_duration))` and the effective
wait before the shift pulse is
`max 0 (shift_start − max(airroll_duration, max(s_duration, d_duration)))`:
the computed windows are slept only when positive, so the slept amount is
clamped to zero and never negative. -/
theorem speedflip_wait_arithmetic (cfg : EngineCfg) (tm : Timings)
    (hg : cfg.global_enabled = true) (hf : cfg.features .speedflip = true) :
    waitBefore (isKeyUp "E") (afterFirst (isKeyDown "E") (act_speedflip cfg tm)) 0
      = some (max 0 (tm.sf_airroll_time_ms - max tm.sf_s_hold_ms tm.sf_d_hold_ms))
    ∧ waitBefore (isKeyDown "LShift") (act_speedflip cfg tm) 0
      = some (max 0 (tm.sf_shift_start_ms -
          max tm.sf_airroll_time_ms (max tm.sf_s_hold_ms tm.sf_d_hold_ms))) := by
  rcases lt_or_ge tm.sf_s_hold_ms tm.sf_d_hold_ms with hsd | hsd <;>
  [have hm : max tm.sf_s_hold_ms tm.sf_d_hold_ms = tm.sf_d_hold_ms := max_eq_right hsd.le;
   have hm : max tm.sf_s_hold_ms tm.sf_d_hold_ms = tm.sf_s_hold_ms := max_eq_left hsd] <;>
  rw [hm] <;>
  rcases le_or_lt (tm.sf_airroll_time_ms - max tm.sf_s_hold_ms tm.sf_d_hold_ms) 0 with he | he <;>
  rcases le_or_lt (tm.sf_shift_start_ms - max tm.sf_airroll_time_ms
      (max tm.sf_s_hold_ms tm.sf_d_hold_ms)) 0 with hs | hs <;>
  rw [hm] at he hs <;>
  constructor <;>
  simp [act_speedflip, hg, hf, afterFirst, waitBefore, isKeyUp, isKeyDown, hsd, hm,
        he, hs, not_lt_of_ge, List.dropWhile] <;> omega

/-- C2 witness: with the default timings (`s_duration = 690`,
`d_duration = 720`, `airroll_duration = 799`) the E-release wait is 79 ms;
with `airroll_duration = 500` the effective wait is 0. -/
theorem speedflip_wait_arithmetic_witness :
    waitBefore (isKeyUp "E")
      (afterFirst (isKeyDown "E") (act_speedflip cfgAllOn defaultTimings)) 0 = some 79
    ∧ waitBefore (isKeyUp "E")
      (afterFirst (isKeyDown "E") (act_speedflip cfgAllOn tmAir500)) 0 = some 0 := by
  constructor
  · have h := (speedflip_wait_arithmetic cfgAllOn defaultTimings rfl rfl).1
    simpa [defaultTimings] using h
  · have h := (speedflip_wait_arithmetic cfgAllOn tmAir500 rfl rfl).1
    simpa [tmAir500, defaultTimings] using h

/-- C7: immediately after SpeedFlip presses S and D, the release order of
the two keys tracks which configured duration is smaller: when
`s_duration < d_duration` the trace continues with a sleep of
`s_duration`, the S release together with the replacement W key-down, a
sleep of the remaining delta `d_duration − s_duration`, then the D
release; otherwise D is released first and S after the delta
`s_duration − d_duration`. -/
theorem speedflip_release_order (cfg : EngineCfg) (tm : Timings)
    (hg : cfg.global_enabled = true) (hf : cfg.features .speedflip = true) :
    (tm.sf_s_hold_ms < tm.sf_d_hold_ms →
      (afterFirst (isKeyDown "S") (act_speedflip cfg tm)).take 6 =
        [.keyDown "D", .sleep tm.sf_s_hold_ms, .keyUp "S", .keyDown "W",
         .sleep (tm.sf_d_hold_ms - tm.sf_s_hold_ms), .keyUp "D"])
    ∧ (tm.sf_d_hold_ms ≤ tm.sf_s_hold_ms →
      (afterFirst (isKeyDown "S") (act_speedflip cfg tm)).take 6 =
        [.keyDown "D", .sleep tm.sf_d_hold_ms, .keyUp "D",
         .sleep (tm.sf_s_hold_ms - tm.sf_d_hold_ms), .keyUp "S", .keyDown "W"]) := by
  constructor <;> intro h <;>
  simp [act_speedflip, hg, hf, afterFirst, isKeyDown, h, not_lt_of_ge, List.dropWhile,
        List.take]

/-- C7 witness: with the default timings (`s_duration = 690 <
d_duration = 720`) S is released first, W is pressed as its replacement,
and D is released 30 ms later. -/
theorem speedflip_release_order_witness :
    (afterFirst (isKeyDown "S") (act_speedflip cfgAllOn defaultTimings)).take 6 =
      [.keyDown "D", .sleep 690, .keyUp "S", .keyDown "W", .sleep 30, .keyUp "D"] := by
  have h := (speedflip_release_order cfgAllOn defaultTimings rfl rfl).1 (by norm_num [defaultTimings])
  simpa [defaultTimings] using h

/-- Unfolding of one step of the keyboard scan: the three `continue`
conditions together are the negation of `matchesKb`. -/
theorem scanKb_cons (cfg : EngineCfg) (running : Act → Bool) (name : List Char) (kbMods : Mods)
    (a : Act) (rest : List Act) :
    scanKbFrom cfg running name kbMods (a :: rest) =
      if matchesKb cfg a name kbMods then
        (if ¬ isAlways a ∧ ¬ cfg.global_enabled then none
         else if isHold a ∧ running a then none
         else some a)
      else scanKbFrom cfg running name kbMods rest := by
  simp only [scanKbFrom, matchesKb]
  split_ifs <;> simp_all

/-- A dispatched action matched the pressed key. -/
theorem scanKb_some (cfg : EngineCfg) (running : Act → Bool) (name : List Char) (kbMods : Mods) :
    ∀ (l : List Act) (b : Act), scanKbFrom cfg running name kbMods l = some b →
      matchesKb cfg b name kbMods = true := by
  intro l
  induction l with
  | nil => intro b h; simp [scanKbFrom] at h
  | cons x rest ih =>
    intro b h
    rw [scanKb_cons] at h
    by_cases hm : matchesKb cfg x name kbMods
    · rw [if_pos hm] at h
      split_ifs at h
      exact (Option.some_inj.mp h) ▸ hm
    · rw [if_neg hm] at h
      exact ih b h

/-- If an earlier action of the scan list matches, a later action is never
the scan result: the scan stops at the first match. -/
theorem scanKb_earlier (cfg : EngineCfg) (running : Act → Bool) (name : List Char) (kbMods : Mods)
    (a b : Act) (hma : matchesKb cfg a name kbMods = true) :
    ∀ (l : List Act), l.Nodup → [a, b].Sublist l →
      scanKbFrom cfg running name kbMods l ≠ some b := by
  intro l
  induction l with
  | nil => intro _ hs; simp at hs
  | cons x rest ih =>
    intro hnd hs h
    rw [scanKb_cons] at h
    have hbrest : b ∈ rest ∨ (x = a ∧ [b].Sublist rest) := by
      cases hs with
      | cons _ htl => exact Or.inl (htl.subset (by simp))
      | cons₂ _ htl => exact Or.inr ⟨rfl, htl⟩
    by_cases hm : matchesKb cfg x name kbMods
    · rw [if_pos hm] at h
      split_ifs at h
      have hxb : x = b := Option.some_inj.mp h
      rcases hbrest with hb | ⟨hxa, hbs⟩
      · exact (List.nodup_cons.mp hnd).1 (hxb ▸ hb)
      · have : b ∈ rest := hbs.subset (by simp)
        exact (List.nodup_cons.mp hnd).1 (hxb ▸ this)
    · rw [if_neg hm] at h
      cases hs with
      | cons _ htl => exact ih (List.nodup_cons.mp hnd).2 htl h
      | cons₂ _ htl => exact hm (by exact hma)

/-- Unfolding of one step of the controller scan. -/
theorem scanGp_cons (cfg : EngineCfg) (running : Act → Bool) (tok : List Char)
    (a : Act) (rest : List Act) :
    scanGpFrom cfg running tok (a :: rest) =
      if matchesGp cfg a tok then
        (if ¬ isAlways a ∧ ¬ cfg.global_enabled then none
         else if isHold a ∧ running a then none
         else some a)
      else scanGpFrom cfg running tok rest := by
  simp only [scanGpFrom, matchesGp]
  split_ifs <;> simp_all

/-- A dispatched action matched the controller token. -/
theorem scanGp_some (cfg : EngineCfg) (running : Act → Bool) (tok : List Char) :
    ∀ (l : List Act) (b : Act), scanGpFrom cfg running tok l = some b →
      matchesGp cfg b tok = true := by
  intro l
  induction l with
  | nil => intro b h; simp [scanGpFrom] at h
  | cons x rest ih =>
    intro b h
    rw [scanGp_cons] at h
    by_cases hm : matchesGp cfg x tok
    · rw [if_pos hm] at h
      split_ifs at h
      exact (Option.some_inj.mp h) ▸ hm
    · rw [if_neg hm] at h
      exact ih b h

/-- Controller version of `scanKb_earlier`. -/
theorem scanGp_earlier (cfg : EngineCfg) (running : Act → Bool) (tok : List Char)
    (a b : Act) (hma : matchesGp cfg a tok = true) :
    ∀ (l : List Act), l.Nodup → [a, b].Sublist l →
      scanGpFrom cfg running tok l ≠ some b := by
  intro l
  induction l with
  | nil => intro _ hs; simp at hs
  | cons x rest ih =>
    intro hnd hs h
    rw [scanGp_cons] at h
    have hbrest : b ∈ rest ∨ (x = a ∧ [b].Sublist rest) := by
      cases hs with
      | cons _ htl => exact Or.inl (htl.subset (by simp))
      | cons₂ _ htl => exact Or.inr ⟨rfl, htl⟩
    by_cases hm : matchesGp cfg x tok
    · rw [if_pos hm] at h
      split_ifs at h
      have hxb : x = b := Option.some_inj.mp h
      rcases hbrest with hb | ⟨hxa, hbs⟩
      · exact (List.nodup_cons.mp hnd).1 (hxb ▸ hb)
      · have : b ∈ rest := hbs.subset (by simp)
        exact (List.nodup_cons.mp hnd).1 (hxb ▸ this)
    · rw [if_neg hm] at h
      cases hs with
      | cons _ htl => exact ih (List.nodup_cons.mp hnd).2 htl h
      | cons₂ _ htl => exact hm (by exact hma)

/-- C3: at most one action is selected by a press token: any dispatched
action matched the token, and when two actions both match, the one later
in the fixed declaration order `[toggle_all, stall, speedflip,
straightdash, turningdash, emergency, exit]` is never dispatched — the
scan stops at the first match.  Stated for both the keyboard and the
controller scan. -/
theorem first_match_wins (cfg : EngineCfg) (running : Act → Bool) (name tok : List Char)
    (kbMods : Mods) (a b : Act) :
    (maybe_trigger_kb cfg false running name kbMods = some b →
      matchesKb cfg b name kbMods = true)
    ∧ (matchesKb cfg a name kbMods = true → matchesKb cfg b name kbMods = true →
      orderPos a < orderPos b →
      maybe_trigger_kb cfg false running name kbMods ≠ some b)
    ∧ (maybe_trigger_gp cfg false running tok = some b →
      matchesGp cfg b tok = true)
    ∧ (matchesGp cfg a tok = true → matchesGp cfg b tok = true →
      orderPos a < orderPos b →
      maybe_trigger_gp cfg false running tok ≠ some b) := by
  have hnd : actionOrder.Nodup := by decide
  refine ⟨?_, ?_, ?_, ?_⟩
  · intro h
    exact scanKb_some cfg running name kbMods actionOrder b (by simpa [maybe_trigger_kb] using h)
  · intro hma _ hlt h
    have hsub : [a, b].Sublist actionOrder := by
      cases a <;> cases b <;> revert hlt <;> decide
    exact scanKb_earlier cfg running name kbMods a b hma actionOrder hnd hsub
      (by simpa [maybe_trigger_kb] using h)
  · intro h
    exact scanGp_some cfg running tok actionOrder b (by simpa [maybe_trigger_gp] using h)
  · intro hma _ hlt h
    have hsub : [a, b].Sublist actionOrder := by
      cases a <;> cases b <;> revert hlt <;> decide
    exact scanGp_earlier cfg running tok a b hma actionOrder hnd hsub
      (by simpa [maybe_trigger_gp] using h)

/-- C3 witness: with `stall` and `speedflip` misconfigured to share the
trigger `H`, pressing `H` never dispatches `speedflip`; likewise the
later of two actions sharing `GP:A` never dispatches. -/
theorem first_match_wins_witness :
    maybe_trigger_kb cfgShared false (fun _ => false) (STR "H") noMods ≠ some .speedflip
    ∧ maybe_trigger_gp cfgShared false (fun _ => false) (STR "GP:A") ≠ some .turningdash := by
  constructor
  · exact (first_match_wins cfgShared (fun _ => false) (STR "H") (STR "GP:A") noMods
      .stall .speedflip).2.1 (by decide) (by decide) (by decide)
  · exact (first_match_wins cfgShared (fun _ => false) (STR "H") (STR "GP:A") noMods
      .straightdash .turningdash).2.2.2 (by decide) (by decide) (by decide)

/-- A hold action whose registry entry is set is never the result of the
keyboard scan: the re-entrancy gate returns before dispatch. -/
theorem scanKb_hold_running (cfg : EngineCfg) (running : Act → Bool) (name : List Char)
    (kbMods : Mods) (b : Act) (hh : isHold b = true) (hr : running b = true) :
    ∀ l, scanKbFrom cfg running name kbMods l ≠ some b := by
  intro l
  induction l with
  | nil => simp [scanKbFrom]
  | cons x rest ih =>
    intro h
    rw [scanKb_cons] at h
    by_cases hm : matchesKb cfg x name kbMods
    · rw [if_pos hm] at h
      split_ifs at h with hg hhr
      have hxb : x = b := Option.some_inj.mp h
      exact hhr ⟨hxb ▸ hh, hxb ▸ hr⟩
    · rw [if_neg hm] at h
      exact ih h

/-- Controller version of `scanKb_hold_running`. -/
theorem scanGp_hold_running (cfg : EngineCfg) (running : Act → Bool) (tok : List Char)
    (b : Act) (hh : isHold b = true) (hr : running b = true) :
    ∀ l, scanGpFrom cfg running tok l ≠ some b := by
  intro l
  induction l with
  | nil => simp [scanGpFrom]
  | cons x rest ih =>
    intro h
    rw [scanGp_cons] at h
    by_cases hm : matchesGp cfg x tok
    · rw [if_pos hm] at h
      split_ifs at h with hg hhr
      have hxb : x = b := Option.some_inj.mp h
      exact hhr ⟨hxb ▸ hh, hxb ▸ hr⟩
    · rw [if_neg hm] at h
      exact ih h

/-- C6: while the Hold-Loop Registry shows a hold action running,
delivering any press token is a no-op for that action: it is never
dispatched from either scan, and when it is the first match of the
keyboard scan nothing at all is dispatched.  The scan mutates no state,
so the registry is unchanged. -/
theorem holdloop_reentrancy (cfg : EngineCfg) (running : Act → Bool) (name tok : List Char)
    (kbMods : Mods) (a : Act) (hh : isHold a = true) (hr : running a = true) :
    maybe_trigger_kb cfg false running name kbMods ≠ some a
    ∧ maybe_trigger_gp cfg false running tok ≠ some a
    ∧ (matchesKb cfg a name kbMods = true →
      (∀ x, orderPos x < orderPos a → matchesKb cfg x name kbMods = false) →
      maybe_trigger_kb cfg false running name kbMods = none) := by
  refine ⟨?_, ?_, ?_⟩
  · intro h
    exact scanKb_hold_running cfg running name kbMods a hh hr actionOrder
      (by simpa [maybe_trigger_kb] using h)
  · intro h
    exact scanGp_hold_running cfg running tok a hh hr actionOrder
      (by simpa [maybe_trigger_gp] using h)
  · intro hma hearlier
    have hcase : a = .straightdash ∨ a = .turningdash := by
      revert hh; cases a <;> simp [isHold]
    rcases hcase with rfl | rfl
    · have h0 := hearlier .toggle_all (by decide)
      have h1 := hearlier .stall (by decide)
      have h2 := hearlier .speedflip (by decide)
      simp [maybe_trigger_kb, actionOrder, scanKb_cons, h0, h1, h2, hma, hr, isHold, isAlways]
    · have h0 := hearlier .toggle_all (by decide)
      have h1 := hearlier .stall (by decide)
      have h2 := hearlier .speedflip (by decide)
      have h3 := hearlier .straightdash (by decide)
      simp [maybe_trigger_kb, actionOrder, scanKb_cons, h0, h1, h2, h3, hma, hr, isHold, isAlways]

/-- C6 witness: with `straightdash` bound to `V` and already running,
pressing `V` dispatches nothing. -/
theorem holdloop_reentrancy_witness :
    maybe_trigger_kb cfgSdOnly false runSd (STR "V") noMods = none := by
  exact (holdloop_reentrancy cfgSdOnly runSd (STR "V") [] noMods .straightdash
    (by decide) (by decide)).2.2 (by decide) (by intro x; cases x <;> decide)

/-- With the global-enable flag off, a non-exempt action is never
dispatched from the keyboard scan. -/
theorem scanKb_global_off (cfg : EngineCfg) (running : Act → Bool) (name : List Char)
    (kbMods : Mods) (b : Act) (hg : cfg.global_enabled = false) (hn : isAlways b = false) :
    ∀ l, scanKbFrom cfg running name kbMods l ≠ some b := by
  intro l
  induction l with
  | nil => simp [scanKbFrom]
  | cons x rest ih =>
    intro h
    rw [scanKb_cons] at h
    by_cases hm : matchesKb cfg x name kbMods
    · rw [if_pos hm] at h
      split_ifs at h with hga hhr
      have hxb : x = b := Option.some_inj.mp h
      exact hga ⟨by simp [hxb, hn], by simp [hg]⟩
    · rw [if_neg hm] at h
      exact ih h

/-- Controller version of `scanKb_global_off`. -/
theorem scanGp_global_off (cfg : EngineCfg) (running : Act → Bool) (tok : List Char)
    (b : Act) (hg : cfg.global_enabled = false) (hn : isAlways b = false) :
    ∀ l, scanGpFrom cfg running tok l ≠ some b := by
  intro l
  induction l with
  | nil => simp [scanGpFrom]
  | cons x rest ih =>
    intro h
    rw [scanGp_cons] at h
    by_cases hm : matchesGp cfg x tok
    · rw [if_pos hm] at h
      split_ifs at h with hga hhr
      have hxb : x = b := Option.some_inj.mp h
      exact hga ⟨by simp [hxb, hn], by simp [hg]⟩
    · rw [if_neg hm] at h
      exact ih h

/-- An exempt action (`toggle_all`, `emergency`, `exit`) that is the first
match of the keyboard scan dispatches whatever the global-enable flag is. -/
theorem scanKb_always_hit (cfg : EngineCfg) (running : Act → Bool) (name : List Char)
    (kbMods : Mods) (a : Act) (hal : isAlways a = true)
    (hma : matchesKb cfg a name kbMods = true)
    (hearlier : ∀ x, orderPos x < orderPos a → matchesKb cfg x name kbMods = false) :
    maybe_trigger_kb cfg false running name kbMods = some a := by
  have hcase : a = .toggle_all ∨ a = .emergency ∨ a = .exit := by
    revert hal; cases a <;> simp [isAlways]
  rcases hcase with rfl | rfl | rfl
  · simp [maybe_trigger_kb, actionOrder, scanKb_cons, hma, isHold, isAlways]
  · have h0 := hearlier .toggle_all (by decide)
    have h1 := hearlier .stall (by decide)
    have h2 := hearlier .speedflip (by decide)
    have h3 := hearlier .straightdash (by decide)
    have h4 := hearlier .turningdash (by decide)
    simp [maybe_trigger_kb, actionOrder, scanKb_cons, h0, h1, h2, h3, h4, hma, isHold, isAlways]
  · have h0 := hearlier .toggle_all (by decide)
    have h1 := hearlier .stall (by decide)
    have h2 := hearlier .speedflip (by decide)
    have h3 := hearlier .straightdash (by decide)
    have h4 := hearlier .turningdash (by decide)
    have h5 := hearlier .emergency (by decide)
    simp [maybe_trigger_kb, actionOrder, scanKb_cons, h0, h1, h2, h3, h4, h5, hma, isHold,
          isAlways]

/-- A straightdash hold loop all of whose iterations see the feature flag
off runs no body cycle. -/
theorem sdLoop_feature_off (tm : Timings) :
    ∀ envs : List HEnv, (∀ e ∈ envs, e.feature = false) → sdLoop tm envs = [] := by
  intro envs h
  cases envs with
  | nil => rfl
  | cons e rest =>
    have hf := h e (by simp)
    simp [sdLoop, hf]

/-- A turningdash hold loop all of whose iterations see the feature flag
off runs no body cycle. -/
theorem tdLoop_feature_off (tm : Timings) :
    ∀ envs : List HEnv, (∀ e ∈ envs, e.feature = false) → tdLoop tm envs = [] := by
  intro envs h
  cases envs with
  | nil => rfl
  | cons e rest =>
    have hf := h e (by simp)
    simp [tdLoop, hf]

/-- C4, amended: `toggle_all`, `emergency` and `exit` dispatch regardless
of the global-enable flag; with the global flag off no other action is
dispatched at all; `stall` and `speedflip` produce no output when either
the global flag or their feature flag is off; a hold-loop action whose
feature flag is off runs no body cycle and presses nothing (no key-down
and no mouse-down) — though its unconditional cleanup still emits
key-ups, which is why the claim's blanket "produces no synthetic output"
had to be weakened. -/
theorem gating_rules (cfg : EngineCfg) (running : Act → Bool) (name tok : List Char)
    (kbMods : Mods) (tm : Timings) (a : Act) :
    (isAlways a = true → matchesKb cfg a name kbMods = true →
      (∀ x, orderPos x < orderPos a → matchesKb cfg x name kbMods = false) →
      maybe_trigger_kb cfg false running name kbMods = some a)
    ∧ (cfg.global_enabled = false → isAlways a = false →
      maybe_trigger_kb cfg false running name kbMods ≠ some a
      ∧ maybe_trigger_gp cfg false running tok ≠ some a)
    ∧ (cfg.global_enabled = false ∨ cfg.features .stall = false → act_stall cfg tm = [])
    ∧ (cfg.global_enabled = false ∨ cfg.features .speedflip = false →
      act_speedflip cfg tm = [])
    ∧ (∀ envs : List HEnv, (∀ e ∈ envs, e.feature = false) →
      (∀ k, Ev.keyDown k ∉ act_straightdash_hold tm envs)
      ∧ Ev.mouseRight true ∉ act_straightdash_hold tm envs)
    ∧ (∀ envs : List HEnv, (∀ e ∈ envs, e.feature = false) →
      (∀ k, Ev.keyDown k ∉ act_turningdash_hold tm envs)
      ∧ Ev.mouseRight true ∉ act_turningdash_hold tm envs) := by
  refine ⟨scanKb_always_hit cfg running name kbMods a, ?_, ?_, ?_, ?_, ?_⟩
  · intro hg hn
    constructor
    · intro h
      exact scanKb_global_off cfg running name kbMods a hg hn actionOrder
        (by simpa [maybe_trigger_kb] using h)
    · intro h
      exact scanGp_global_off cfg running tok a hg hn actionOrder
        (by simpa [maybe_trigger_gp] using h)
  · intro h
    rcases h with h | h <;> simp [act_stall, h]
  · intro h
    rcases h with h | h <;> simp [act_speedflip, h]
  · intro envs h
    rw [act_straightdash_hold, sdLoop_feature_off tm envs h]
    constructor
    · intro k; simp
    · simp
  · intro envs h
    rw [act_turningdash_hold, tdLoop_feature_off tm envs h]
    constructor
    · intro k; simp
    · simp

/-- C4 counterexample: with `straightdash`'s feature flag off (global
flag on), pressing its trigger still dispatches the action — the scan
checks only the global flag — and the hold loop's run still produces
synthetic output (its unconditional cleanup key-ups), refuting
"suppressed (produces no synthetic output) whenever ... that action's
feature-enable flag is false" as stated. -/
theorem gating_counterexample :
    maybe_trigger_kb cfgSdFeatOff false (fun _ => false) (STR "V") noMods
      = some .straightdash
    ∧ Ev.keyUp "Q" ∈ act_straightdash_hold defaultTimings [⟨false, true, true, false⟩]
    ∧ act_straightdash_hold defaultTimings [⟨false, true, true, false⟩] ≠ [] := by
  refine ⟨by decide, by decide, by decide⟩

/-- C4 witness: with the global flag off, pressing `toggle_all`'s trigger
still dispatches it, pressing `stall`'s trigger dispatches nothing for
`stall`, and `stall`'s body produces no output. -/
theorem gating_rules_witness :
    maybe_trigger_kb cfgGlobalOff false (fun _ => false) (STR "F6") noMods
      = some .toggle_all
    ∧ maybe_trigger_kb cfgGlobalOff false (fun _ => false) (STR "F") noMods ≠ some .stall
    ∧ act_stall cfgGlobalOff defaultTimings = [] := by
  refine ⟨?_, ?_, ?_⟩
  · exact (gating_rules cfgGlobalOff (fun _ => false) (STR "F6") [] noMods defaultTimings
      .toggle_all).1 (by decide) (by decide) (by intro x; cases x <;> decide)
  · exact ((gating_rules cfgGlobalOff (fun _ => false) (STR "F") [] noMods defaultTimings
      .stall).2.1 (by decide) (by decide)).1
  · exact (gating_rules cfgGlobalOff (fun _ => false) (STR "F") [] noMods defaultTimings
      .stall).2.2.1 (Or.inl (by decide))

/-- Folding the held-key state distributes over trace concatenation. -/
theorem heldAfter_append (h : String → Bool) (t1 t2 : List Ev) :
    heldAfter h (t1 ++ t2) = heldAfter (heldAfter h t1) t2 := by
  simp [heldAfter, List.foldl_append]

/-- Net effect of one straightdash body cycle on the held-key state. -/
theorem heldAfter_sdCycle (tm : Timings) (h : String → Bool) (k : String) :
    heldAfter h (sdCycle tm) k = if k = "Q" then true else if k = "W" then true else h k := rfl

/-- Net effect of one turningdash body cycle on the held-key state:
D and A are released inside the cycle, W and Q stay down. -/
theorem heldAfter_tdCycle (tm : Timings) (h : String → Bool) (k : String) :
    heldAfter h (tdCycle tm) k =
      if k = "A" then false
      else if k = "D" then false
      else if k = "Q" then true
      else if k = "W" then true else h k := by
  simp only [heldAfter, tdCycle, List.foldl, heldStep]
  split_ifs <;> simp_all

/-- Any key left down by the straightdash loop is W or Q. -/
theorem sdLoop_held (tm : Timings) :
    ∀ (envs : List HEnv) (h : String → Bool) (k : String),
      heldAfter h (sdLoop tm envs) k = true → h k = true ∨ k = "W" ∨ k = "Q" := by
  intro envs
  induction envs with
  | nil => intro h k hk; exact Or.inl hk
  | cons e rest ih =>
    intro h k hk
    rw [sdLoop] at hk
    split_ifs at hk with h1 h2
    · exact Or.inl hk
    · exact Or.inl hk
    · rw [heldAfter_append] at hk
      rcases ih _ k hk with hc | hc
      · rw [heldAfter_sdCycle] at hc
        split_ifs at hc with hq hw
        · exact Or.inr (Or.inr hq)
        · exact Or.inr (Or.inl hw)
        · exact Or.inl hc
      · exact Or.inr hc

/-- Any key left down by the turningdash loop is W or Q. -/
theorem tdLoop_held (tm : Timings) :
    ∀ (envs : List HEnv) (h : String → Bool) (k : String),
      heldAfter h (tdLoop tm envs) k = true → h k = true ∨ k = "W" ∨ k = "Q" := by
  intro envs
  induction envs with
  | nil => intro h k hk; exact Or.inl hk
  | cons e rest ih =>
    intro h k hk
    rw [tdLoop] at hk
    split_ifs at hk with h1 h2
    · exact Or.inl hk
    · exact Or.inl hk
    · rw [heldAfter_append] at hk
      rcases ih _ k hk with hc | hc
      · rw [heldAfter_tdCycle] at hc
        split_ifs at hc with ha hd hq hw
        · exact Or.inr (Or.inr hq)
        · exact Or.inr (Or.inl hw)
        · exact Or.inl hc
      · exact Or.inr hc

/-- Every key the straightdash loop ever presses is W or Q. -/
theorem sdLoop_keyDown (tm : Timings) :
    ∀ (envs : List HEnv) (k : String),
      Ev.keyDown k ∈ sdLoop tm envs → k = "W" ∨ k = "Q" := by
  intro envs
  induction envs with
  | nil => intro k h; simp [sdLoop] at h
  | cons e rest ih =>
    intro k h
    rw [sdLoop] at h
    split_ifs at h
    · simp at h
    · simp at h
    · rcases List.mem_append.mp h with hc | hc
      · rcases (by simpa [sdCycle] using hc : Ev.keyDown k = Ev.keyDown "W" ∨
          Ev.keyDown k = Ev.keyDown "Q") with h1 | h1 <;> simp at h1 <;> [exact Or.inl h1;
          exact Or.inr h1]
      · exact ih k hc

/-- Every key the turningdash loop ever presses is W, Q, D or A. -/
theorem tdLoop_keyDown (tm : Timings) :
    ∀ (envs : List HEnv) (k : String),
      Ev.keyDown k ∈ tdLoop tm envs → k = "W" ∨ k = "Q" ∨ k = "D" ∨ k = "A" := by
  intro envs
  induction envs with
  | nil => intro k h; simp [tdLoop] at h
  | cons e rest ih =>
    intro k h
    rw [tdLoop] at h
    split_ifs at h
    · simp at h
    · simp at h
    · rcases List.mem_append.mp h with hc | hc
      · simp only [tdCycle, List.mem_cons, List.not_mem_nil, or_false] at hc
        rcases hc with h1 | h1 | h1 | h1 | h1 | h1 | h1 | h1 | h1 | h1 | h1 | h1 | h1 | h1 <;>
          simp at h1 <;> simp [h1]
      · exact ih k hc

/-- Every key the whole straightdash action (loop plus cleanup) ever
presses is W or Q. -/
theorem act_sd_keyDown (tm : Timings) (envs : List HEnv) (k : String)
    (h : Ev.keyDown k ∈ act_straightdash_hold tm envs) : k = "W" ∨ k = "Q" := by
  rw [act_straightdash_hold] at h
  simp only [List.mem_append, List.mem_cons, List.not_mem_nil, or_false] at h
  rcases h with (h | h) | h | h | h
  · simp at h
  · exact sdLoop_keyDown tm envs k h
  all_goals simp at h

/-- Every key the whole turningdash action (loop plus cleanup) ever
presses is W, Q, D or A. -/
theorem act_td_keyDown (tm : Timings) (envs : List HEnv) (k : String)
    (h : Ev.keyDown k ∈ act_turningdash_hold tm envs) :
    k = "W" ∨ k = "Q" ∨ k = "D" ∨ k = "A" := by
  rw [act_turningdash_hold] at h
  simp only [List.mem_append, List.mem_cons, List.not_mem_nil, or_false] at h
  rcases h with (h | h) | h | h | h | h | h
  · simp at h
  · exact tdLoop_keyDown tm envs k h
  all_goals simp at h

/-- C5: whenever a hold-loop action terminates — trigger released, kill
flag set, global or feature flag turned off mid-loop, or the observation
stream ending — the `finally` cleanup runs: the trace always ends with
the key-ups for every key the loop may have pressed followed by the
registry reset, the net held-key state is empty (every key-down has a
matching later key-up), and the registry entry is false afterwards;
quantified over every possible iteration environment, i.e. every exit
path of the embedded loop. -/
theorem holdloop_cleanup (tm : Timings) (envs : List HEnv) (r : Act → Bool) :
    (∀ k, heldAfter (fun _ => false) (act_straightdash_hold tm envs) k = false)
    ∧ runningAfter r (act_straightdash_hold tm envs) .straightdash = false
    ∧ List.IsSuffix [.keyUp "Q", .keyUp "W", .setRunning .straightdash false]
        (act_straightdash_hold tm envs)
    ∧ (∀ k, Ev.keyDown k ∈ act_straightdash_hold tm envs → k = "W" ∨ k = "Q")
    ∧ (∀ k, heldAfter (fun _ => false) (act_turningdash_hold tm envs) k = false)
    ∧ runningAfter r (act_turningdash_hold tm envs) .turningdash = false
    ∧ List.IsSuffix [.keyUp "A", .keyUp "D", .keyUp "Q", .keyUp "W",
        .setRunning .turningdash false] (act_turningdash_hold tm envs)
    ∧ (∀ k, Ev.keyDown k ∈ act_turningdash_hold tm envs →
        k = "W" ∨ k = "Q" ∨ k = "D" ∨ k = "A") := by
  refine ⟨?_, ?_, ⟨[.setRunning .straightdash true] ++ sdLoop tm envs,
      by simp [act_straightdash_hold]⟩, ?_, ?_, ?_,
      ⟨[.setRunning .turningdash true] ++ tdLoop tm envs,
      by simp [act_turningdash_hold]⟩, ?_⟩
  · intro k
    rw [act_straightdash_hold, heldAfter_append, heldAfter_append]
    by_cases hw : k = "W"
    · simp [heldAfter, heldStep, hw]
    · by_cases hq : k = "Q"
      · simp [heldAfter, heldStep, hq]
      · have hbase : heldAfter (fun _ => false) [Ev.setRunning .straightdash true] =
          (fun _ => false) := rfl
        rw [hbase]
        by_cases hl : heldAfter (fun _ => false) (sdLoop tm envs) k = true
        · rcases sdLoop_held tm envs _ k hl with hc | hc | hc
          · exact absurd hc (by simp)
          · exact absurd hc hw
          · exact absurd hc hq
        · simp only [heldAfter, List.foldl, heldStep]
          simp only [Bool.not_eq_true] at hl
          simp [heldAfter] at hl
          simp [hw, hq, hl]
  · rw [act_straightdash_hold]
    simp [runningAfter, List.foldl_append, runningStep]
  · exact act_sd_keyDown tm envs
  · intro k
    rw [act_turningdash_hold, heldAfter_append, heldAfter_append]
    by_cases hw : k = "W"
    · simp [heldAfter, heldStep, hw]
    · by_cases hq : k = "Q"
      · simp [heldAfter, heldStep, hq]
      · by_cases hd : k = "D"
        · simp [heldAfter, heldStep, hd]
        · by_cases ha : k = "A"
          · simp [heldAfter, heldStep, ha]
          · have hbase : heldAfter (fun _ => false) [Ev.setRunning .turningdash true] =
              (fun _ => false) := rfl
            rw [hbase]
            by_cases hl : heldAfter (fun _ => false) (tdLoop tm envs) k = true
            · rcases tdLoop_held tm envs _ k hl with hc | hc | hc
              · exact absurd hc (by simp)
              · exact absurd hc hw
              · exact absurd hc hq
            · simp only [heldAfter, List.foldl, heldStep]
              simp only [Bool.not_eq_true] at hl
              simp [heldAfter] at hl
              simp [hw, hq, hd, ha, hl]
  · rw [act_turningdash_hold]
    simp [runningAfter, List.foldl_append, runningStep]
  · exact act_td_keyDown tm envs

/-- C5 witness: a one-iteration straightdash run ends with W no longer
held and the registry entry false. -/
theorem holdloop_cleanup_witness :
    heldAfter (fun _ => false)
      (act_straightdash_hold defaultTimings [⟨false, true, true, true⟩]) "W" = false
    ∧ runningAfter (fun _ => false)
      (act_straightdash_hold defaultTimings [⟨false, true, true, true⟩]) .straightdash
        = false := by
  exact ⟨(holdloop_cleanup defaultTimings [⟨false, true, true, true⟩] (fun _ => false)).1 "W",
    (holdloop_cleanup defaultTimings [⟨false, true, true, true⟩] (fun _ => false)).2.1⟩

/-- Every key `_act_stall` ever presses is Q or D. -/
theorem stall_keyDown (cfg : EngineCfg) (tm : Timings) (k : String)
    (h : Ev.keyDown k ∈ act_stall cfg tm) : k = "Q" ∨ k = "D" := by
  rw [act_stall] at h
  split_ifs at h <;> simp_all

/-- Every key `_act_speedflip` ever presses is one of I, A, E, W, S, D,
LShift. -/
theorem speedflip_keyDown (cfg : EngineCfg) (tm : Timings) (k : String)
    (h : Ev.keyDown k ∈ act_speedflip cfg tm) :
    k = "I" ∨ k = "A" ∨ k = "E" ∨ k = "W" ∨ k = "S" ∨ k = "D" ∨ k = "LShift" := by
  rw [act_speedflip] at h
  split_ifs at h <;> simp_all <;> tauto

/-- C8: Emergency first sets the kill flag, issues an unconditional
key-up for each of W, A, S, D, Q, E, I, LShift and a
mouse-right-button-up — a superset of every key any macro body ever
presses — and finally clears the kill flag, so from any initial kill
state the flag is false once Emergency completes and later triggers
dispatch again. -/
theorem emergency_release_sweep (b : Bool) (cfg : EngineCfg) (tm : Timings)
    (envs : List HEnv) :
    act_emergency.head? = some (.setKill true)
    ∧ killAfter b act_emergency = false
    ∧ (∀ k, k ∈ ["W", "A", "S", "D", "Q", "E", "I", "LShift"] →
      Ev.keyUp k ∈ act_emergency)
    ∧ Ev.mouseRight false ∈ act_emergency
    ∧ (∀ k, Ev.keyDown k ∈ act_stall cfg tm ∨ Ev.keyDown k ∈ act_speedflip cfg tm
        ∨ Ev.keyDown k ∈ act_straightdash_hold tm envs
        ∨ Ev.keyDown k ∈ act_turningdash_hold tm envs →
      Ev.keyUp k ∈ act_emergency) := by
  refine ⟨rfl, rfl, by decide, by decide, ?_⟩
  intro k h
  rcases h with h | h | h | h
  · rcases stall_keyDown cfg tm k h with rfl | rfl <;> decide
  · rcases speedflip_keyDown cfg tm k h with rfl | rfl | rfl | rfl | rfl | rfl | rfl <;> decide
  · rcases act_sd_keyDown tm envs k h with rfl | rfl <;> decide
  · rcases act_td_keyDown tm envs k h with rfl | rfl | rfl | rfl <;> decide

/-- C8 witness: SpeedFlip presses S; Emergency's sweep releases it, and
the kill flag ends false after an Emergency that started with it set. -/
theorem emergency_release_sweep_witness :
    Ev.keyUp "S" ∈ act_emergency ∧ killAfter true act_emergency = false := by
  refine ⟨?_, (emergency_release_sweep true cfgAllOn defaultTimings []).2.1⟩
  exact (emergency_release_sweep true cfgAllOn defaultTimings []).2.2.2.2 "S"
    (Or.inr (Or.inl (by decide)))

/-- `(!x || y)` is Boolean implication. -/
theorem bfalse_or_iff (x y : Bool) : (x = false ∨ y = true) ↔ (x = true → y = true) := by
  cases x <;> simp

/-- `subMods` is the pointwise-implication order on the four flags. -/
theorem subMods_iff (m1 m2 : Mods) : subMods m1 m2 = true ↔
    ((m1.ctrl = true → m2.ctrl = true) ∧ (m1.alt = true → m2.alt = true)
     ∧ (m1.shift = true → m2.shift = true) ∧ (m1.win = true → m2.win = true)) := by
  simp [subMods, Bool.and_eq_true, and_assoc, bfalse_or_iff]

/-- One classification step only ever adds modifiers. -/
theorem modStep_subMods (mk : Mods × List Char) (p : List Char) :
    subMods mk.1 (modStep mk p).1 = true := by
  unfold modStep
  split_ifs <;> simp [subMods_iff]

/-- The whole classification fold only ever adds modifiers. -/
theorem foldl_modStep_subMods (parts : List (List Char)) :
    ∀ mk : Mods × List Char, subMods mk.1 ((parts.foldl modStep mk).1) = true := by
  induction parts with
  | nil => intro mk; simp [subMods_iff]
  | cons p rest ih =>
    intro mk
    have h1 := modStep_subMods mk p
    have h2 := ih (modStep mk p)
    rw [subMods_iff] at h1 h2 ⊢
    exact ⟨fun h => h2.1 (h1.1 h), fun h => h2.2.1 (h1.2.1 h),
      fun h => h2.2.2.1 (h1.2.2.1 h), fun h => h2.2.2.2 (h1.2.2.2 h)⟩

/-- Membership of a named modifier is monotone along `subMods`. -/
theorem namedModIn_mono (p : List Char) (m1 m2 : Mods) (h1 : namedModIn p m1 = true)
    (h2 : subMods m1 m2 = true) : namedModIn p m2 = true := by
  rw [subMods_iff] at h2
  unfold namedModIn at h1 ⊢
  split_ifs at h1 ⊢
  · exact h2.1 h1
  · exact h2.2.1 h1
  · exact h2.2.2.1 h1
  · exact h2.2.2.2 h1

/-- Classifying a recognized modifier token records it in the set. -/
theorem namedModIn_modStep_self (p : List Char) (hp : isModName p = true)
    (mk : Mods × List Char) : namedModIn p ((modStep mk p).1) = true := by
  unfold namedModIn modStep
  split_ifs with h1 h2 h3 h4 <;> simp_all [isModName]

/-- When every token is a recognized modifier name the fold leaves the
key component untouched. -/
theorem foldl_modStep_key (parts : List (List Char))
    (h : ∀ p ∈ parts, isModName p = true) :
    ∀ mk : Mods × List Char, (parts.foldl modStep mk).2 = mk.2 := by
  induction parts with
  | nil => intro mk; rfl
  | cons p rest ih =>
    intro mk
    have hp := h p (by simp)
    have hstep : (modStep mk p).2 = mk.2 := by
      unfold modStep
      split_ifs with h1 h2 h3 h4 <;> simp_all [isModName]
    rw [List.foldl_cons, ih (fun q hq => h q (by simp [hq])), hstep]

/-- Every recognized modifier token of the list ends up in the folded
modifier set. -/
theorem foldl_modStep_mem (parts : List (List Char)) (p : List Char)
    (hmod : isModName p = true) :
    ∀ mk : Mods × List Char, p ∈ parts →
      namedModIn p ((parts.foldl modStep mk).1) = true := by
  induction parts with
  | nil => intro mk h; simp at h
  | cons q rest ih =>
    intro mk hmem
    rcases List.mem_cons.mp hmem with rfl | hmem2
    · rw [List.foldl_cons]
      exact namedModIn_mono p _ _ (namedModIn_modStep_self p hmod mk)
        (foldl_modStep_subMods rest (modStep mk p))
    · rw [List.foldl_cons]
      exact ih (modStep mk q) hmem2

/-- `getLastD` of a nonempty list is an element of it. -/
theorem getLastD_mem {α : Type} : ∀ (l : List α) (d : α), l ≠ [] → l.getLastD d ∈ l := by
  intro l
  induction l with
  | nil => intro d h; exact absurd rfl h
  | cons x xs ih =>
    intro d _
    cases hx : xs with
    | nil => simp
    | cons y ys =>
      rw [List.getLastD_cons]
      exact List.mem_cons_of_mem x (hx ▸ ih x (by simp [hx]))

/-- Every normalized hotkey token is nonempty (empty pieces are filtered
out before upper-casing). -/
theorem hotkeyParts_mem_ne_nil (s : List Char) (p : List Char)
    (h : p ∈ hotkeyParts s) : p ≠ [] := by
  unfold hotkeyParts at h
  rcases List.mem_map.mp h with ⟨q, hq, rfl⟩
  have hq2 := List.of_mem_filter hq
  intro hc
  have hqnil : q = [] := by simpa [upper] using hc
  subst hqnil
  simp at hq2

/-- The keyboard branch of `parse_hotkey`, written out. -/
theorem parse_hotkey_kb_eq (s : List Char) (h1 : trim s ≠ [])
    (h2 : is_gamepad_hotkey (trim s) = false) :
    parse_hotkey s = ⟨.kb, ((hotkeyParts (trim s)).foldl modStep (noMods, [])).1,
      if ((hotkeyParts (trim s)).foldl modStep (noMods, [])).2 = [] ∧ hotkeyParts (trim s) ≠ []
      then (hotkeyParts (trim s)).getLastD []
      else ((hotkeyParts (trim s)).foldl modStep (noMods, [])).2⟩ := by
  rw [parse_hotkey]
  simp only [h1, h2, if_false, ite_false, Bool.false_eq_true]

/-- C10: on a non-GP input all of whose normalized tokens are recognized
modifier names (and which has at least one token), `parse_hotkey` returns
a keyboard trigger whose symbol is the last token — not empty, so the
trigger can still match — and whose modifier set contains every named
modifier. -/
theorem parse_all_modifier_tokens (s : List Char) (h1 : trim s ≠ [])
    (h2 : is_gamepad_hotkey (trim s) = false)
    (h3 : hotkeyParts (trim s) ≠ [])
    (h4 : ∀ p ∈ hotkeyParts (trim s), isModName p = true) :
    (parse_hotkey s).kind = .kb
    ∧ (parse_hotkey s).sym = (hotkeyParts (trim s)).getLastD []
    ∧ (parse_hotkey s).sym ≠ []
    ∧ ∀ p ∈ hotkeyParts (trim s), namedModIn p (parse_hotkey s).mods = true := by
  have hkey := foldl_modStep_key (hotkeyParts (trim s)) h4 (noMods, [])
  rw [parse_hotkey_kb_eq s h1 h2]
  refine ⟨rfl, ?_, ?_, ?_⟩
  · exact if_pos ⟨hkey, h3⟩
  · rw [if_pos ⟨hkey, h3⟩]
    exact hotkeyParts_mem_ne_nil _ _ (getLastD_mem _ [] h3)
  · intro p hp
    exact foldl_modStep_mem _ p (h4 p hp) (noMods, []) hp

/-- C10 witness: `"Ctrl+Shift"` parses to a keyboard trigger with symbol
`SHIFT` (the last token, nonempty) containing both named modifiers. -/
theorem parse_all_modifier_tokens_witness :
    (parse_hotkey (STR "Ctrl+Shift")).sym = STR "SHIFT"
    ∧ (parse_hotkey (STR "Ctrl+Shift")).mods = ⟨true, false, true, false⟩ := by
  have h := parse_all_modifier_tokens (STR "Ctrl+Shift") (by decide) (by decide)
    (by decide) (by decide)
  exact ⟨by rw [h.2.1]; decide, by decide⟩

/-- A string of whitespace strips to the empty string. -/
theorem trim_nil_of_ws (s : List Char) (h : ∀ c ∈ s, c.isWhitespace = true) :
    trim s = [] := by
  have h1 : trimL s = [] := by
    rw [trimL, List.dropWhile_eq_nil_iff]
    exact h
  rw [trim, h1]
  rfl

/-- C9: `parse_hotkey` is a total function — the embedding needs no
error case — empty or whitespace-only input yields the null keyboard
trigger, and any binding that parses to an empty symbol matches no
keyboard or controller token, so it never dispatches any action from
either scan. -/
theorem parse_never_matches (s : List Char) :
    ((∀ c ∈ s, c.isWhitespace = true) → parse_hotkey s = ⟨.kb, noMods, []⟩)
    ∧ (∀ (cfg : EngineCfg) (a : Act) (running : Act → Bool) (name tok : List Char)
        (kbMods : Mods),
      (parse_hotkey (cfg.hotkeys a)).sym = [] →
      matchesKb cfg a name kbMods = false ∧ matchesGp cfg a tok = false
      ∧ maybe_trigger_kb cfg false running name kbMods ≠ some a
      ∧ maybe_trigger_gp cfg false running tok ≠ some a) := by
  constructor
  · intro h
    have ht := trim_nil_of_ws s h
    rw [parse_hotkey]
    simp [ht]
  · intro cfg a running name tok kbMods hsym
    have hkb : matchesKb cfg a name kbMods = false := by
      simp [matchesKb, hsym]
    have hgp : matchesGp cfg a tok = false := by
      simp [matchesGp, hsym]
    refine ⟨hkb, hgp, ?_, ?_⟩
    · intro h
      have := scanKb_some cfg running name kbMods actionOrder a
        (by simpa [maybe_trigger_kb] using h)
      rw [hkb] at this
      exact Bool.false_ne_true this
    · intro h
      have := scanGp_some cfg running tok actionOrder a
        (by simpa [maybe_trigger_gp] using h)
      rw [hgp] at this
      exact Bool.false_ne_true this

/-- C9 witness: whitespace bindings parse to the null trigger and never
dispatch `stall` for a pressed `F`. -/
theorem parse_never_matches_witness :
    parse_hotkey (STR "   ") = ⟨.kb, noMods, []⟩
    ∧ maybe_trigger_kb cfgUnbound false (fun _ => false) (STR "F") noMods ≠ some .stall := by
  constructor
  · exact (parse_never_matches (STR "   ")).1 (by decide)
  · exact ((parse_never_matches (STR "   ")).2 cfgUnbound .stall (fun _ => false)
      (STR "F") [] noMods (by decide)).2.2.1

/-- `upChar` creates no `+`. -/
theorem upChar_plus (c : Char) : upChar c = '+' ↔ c = '+' := by
  unfold upChar
  split <;> simp_all

/-- `upChar` creates no `-`. -/
theorem upChar_dash (c : Char) : upChar c = '-' ↔ c = '-' := by
  unfold upChar
  split <;> simp_all

/-- `upChar` preserves whitespace-ness. -/
theorem upChar_ws (c : Char) : (upChar c).isWhitespace = c.isWhitespace := by
  unfold upChar
  split <;> simp_all

/-- `upChar` either fixes its argument or returns an upper-case letter. -/
theorem upChar_cases (c : Char) :
    upChar c = c ∨ upChar c ∈ STR "ABCDEFGHIJKLMNOPQRSTUVWXYZ" := by
  unfold upChar
  split <;> first | exact Or.inl rfl | exact Or.inr (by decide)

/-- Upper-case letters are fixed points of `upChar`. -/
theorem upLetters_fixed : ∀ d ∈ STR "ABCDEFGHIJKLMNOPQRSTUVWXYZ", upChar d = d := by decide

/-- `upChar` is idempotent. -/
theorem upChar_idem (c : Char) : upChar (upChar c) = upChar c := by
  rcases upChar_cases c with h | h
  · rw [h]; exact h
  · exact upLetters_fixed _ h

/-- `upper` is idempotent. -/
theorem upper_idem (l : List Char) : upper (upper l) = upper l := by
  simp only [upper, List.map_map]
  exact List.map_congr_left fun c _ => upChar_idem c

/-- `upper` introduces no `+`. -/
theorem upper_no_plus (l : List Char) (h : '+' ∉ l) : '+' ∉ upper l := by
  intro hc
  rcases List.mem_map.mp hc with ⟨d, hd, hup⟩
  exact h ((upChar_plus d).mp hup ▸ hd)

/-- `upper` introduces no `-`. -/
theorem upper_no_dash (l : List Char) (h : '-' ∉ l) : '-' ∉ upper l := by
  intro hc
  rcases List.mem_map.mp hc with ⟨d, hd, hup⟩
  exact h ((upChar_dash d).mp hup ▸ hd)

/-- The head a `dropWhile` exposes fails the predicate. -/
theorem dropWhile_head?_false (pr : Char → Bool) (l : List Char) (c : Char)
    (h : (l.dropWhile pr).head? = some c) : pr c = false := by
  induction l with
  | nil => simp at h
  | cons x xs ih =>
    rw [List.dropWhile_cons] at h
    split_ifs at h with hx
    · exact ih h
    · simp at h
      rw [← h]
      simpa using hx

/-- The first character of a stripped string is not whitespace. -/
theorem trim_head?_ws (l : List Char) (c : Char) (h : (trim l).head? = some c) :
    c.isWhitespace = false := by
  rw [trim, List.head?_reverse] at h
  rcases List.dropWhile_suffix (l := (trimL l).reverse) (fun c => c.isWhitespace) with ⟨t, ht⟩
  have hy : ((trimL l).reverse.dropWhile fun c => c.isWhitespace) ≠ [] := by
    intro hy; rw [hy] at h; simp at h
  have happ := List.getLast?_append_of_ne_nil t hy
  rw [ht, List.getLast?_reverse] at happ
  rw [h] at happ
  simp only [trimL] at happ
  exact dropWhile_head?_false _ _ _ happ

/-- The last character of a stripped string is not whitespace. -/
theorem trim_getLast?_ws (l : List Char) (c : Char) (h : (trim l).getLast? = some c) :
    c.isWhitespace = false := by
  rw [trim, List.getLast?_reverse] at h
  exact dropWhile_head?_false _ _ _ h

/-- A string with no whitespace at either end strips to itself. -/
theorem trim_eq_self (l : List Char)
    (hh : ∀ c, l.head? = some c → c.isWhitespace = false)
    (hl : ∀ c, l.getLast? = some c → c.isWhitespace = false) : trim l = l := by
  have h1 : trimL l = l := by
    cases l with
    | nil => rfl
    | cons x t =>
      rw [trimL, List.dropWhile_cons]
      simp [hh x rfl]
  rw [trim, h1]
  cases hrev : l.reverse with
  | nil =>
    rw [List.reverse_eq_nil_iff] at hrev
    simp [hrev]
  | cons x t =>
    have hx : x.isWhitespace = false := by
      refine hl x ?_
      rw [← List.head?_reverse, hrev]
      rfl
    rw [List.dropWhile_cons]
    simp only [hx, Bool.false_eq_true, if_false, ite_false]
    rw [← hrev, List.reverse_reverse]

/-- Stripping only removes characters. -/
theorem trim_subset (l : List Char) (c : Char) (h : c ∈ trim l) : c ∈ l := by
  rw [trim, List.mem_reverse] at h
  have h2 := (List.dropWhile_suffix (fun c : Char => c.isWhitespace)).subset h
  rw [List.mem_reverse] at h2
  exact (List.dropWhile_suffix (fun c : Char => c.isWhitespace)).subset h2


/-- No piece of a `splitOnP` contains a separator. -/
theorem splitOnP_not_sep (pr : Char → Bool) :
    ∀ (l q : List Char), q ∈ l.splitOnP pr → ∀ c ∈ q, pr c = false := by
  intro l
  induction l with
  | nil =>
    intro q hq c hc
    rw [List.splitOnP_nil] at hq
    simp at hq
    simp [hq] at hc
  | cons x xs ih =>
    intro q hq c hc
    rw [List.splitOnP_cons] at hq
    split_ifs at hq with hx
    · rcases List.mem_cons.mp hq with rfl | hq2
      · simp at hc
      · exact ih q hq2 c hc
    · cases h2 : xs.splitOnP pr with
      | nil => exact absurd h2 (List.splitOnP_ne_nil pr xs)
      | cons hd tl =>
        rw [h2] at hq
        simp only [List.modifyHead] at hq
        rcases List.mem_cons.mp hq with rfl | hq2
        · rcases List.mem_cons.mp hc with rfl | hc2
          · simpa using hx
          · exact ih hd (h2 ▸ List.mem_cons_self hd tl) c hc2
        · exact ih q (h2 ▸ List.mem_cons_of_mem hd hq2) c hc

/-- Every character of a `splitOnP` piece comes from the split string. -/
theorem splitOnP_mem_subset (pr : Char → Bool) :
    ∀ (l q : List Char), q ∈ l.splitOnP pr → ∀ c ∈ q, c ∈ l := by
  intro l
  induction l with
  | nil =>
    intro q hq c hc
    rw [List.splitOnP_nil] at hq
    simp at hq
    simp [hq] at hc
  | cons x xs ih =>
    intro q hq c hc
    rw [List.splitOnP_cons] at hq
    split_ifs at hq with hx
    · rcases List.mem_cons.mp hq with rfl | hq2
      · simp at hc
      · exact List.mem_cons_of_mem x (ih q hq2 c hc)
    · cases h2 : xs.splitOnP pr with
      | nil => exact absurd h2 (List.splitOnP_ne_nil pr xs)
      | cons hd tl =>
        rw [h2] at hq
        simp only [List.modifyHead] at hq
        rcases List.mem_cons.mp hq with rfl | hq2
        · rcases List.mem_cons.mp hc with rfl | hc2
          · exact List.mem_cons_self c xs
          · exact List.mem_cons_of_mem x (ih hd (h2 ▸ List.mem_cons_self hd tl) c hc2)
        · exact List.mem_cons_of_mem x (ih q (h2 ▸ List.mem_cons_of_mem hd hq2) c hc)

/-- `joinPlus` on a list of two or more pieces. -/
theorem joinPlus_cons₂ (p : List Char) (l : List (List Char)) (hl : l ≠ []) :
    joinPlus (p :: l) = p ++ '+' :: joinPlus l := by
  cases l with
  | nil => exact absurd rfl hl
  | cons q qs => rfl

theorem joinPlus_mem (ps : List (List Char)) (c : Char) (h : c ∈ joinPlus ps) :
    c = '+' ∨ ∃ q ∈ ps, c ∈ q := by
  induction ps with
  | nil => simp [joinPlus] at h
  | cons p rest ih =>
    cases hr : rest with
    | nil =>
      subst hr
      exact Or.inr ⟨p, by simp, by simpa [joinPlus] using h⟩
    | cons q qs =>
      rw [hr] at h ih
      rw [joinPlus_cons₂ p _ (by simp)] at h
      rcases List.mem_append.mp h with hc | hc
      · exact Or.inr ⟨p, by simp, hc⟩
      · rcases List.mem_cons.mp hc with rfl | hc2
        · exact Or.inl rfl
        · rcases ih hc2 with h1 | ⟨r, hr2, hr3⟩
          · exact Or.inl h1
          · exact Or.inr ⟨r, by simp [hr2], hr3⟩

theorem joinPlus_last_ne_nil (ps : List (List Char)) (k : List Char) (hk : k ≠ []) :
    joinPlus (ps ++ [k]) ≠ [] := by
  cases ps with
  | nil => simpa [joinPlus] using hk
  | cons p rest =>
    rw [List.cons_append, joinPlus_cons₂ p _ (by simp)]
    simp

theorem joinPlus_head? (p : List Char) (ps : List (List Char)) (hp : p ≠ []) :
    (joinPlus (p :: ps)).head? = p.head? := by
  cases ps with
  | nil => rfl
  | cons q qs =>
    rw [joinPlus_cons₂ p _ (by simp)]
    cases p with
    | nil => exact absurd rfl hp
    | cons a t => rfl

theorem joinPlus_getLast? (ps : List (List Char)) (k : List Char) (hk : k ≠ []) :
    (joinPlus (ps ++ [k])).getLast? = k.getLast? := by
  induction ps with
  | nil => rfl
  | cons p rest ih =>
    rw [List.cons_append, joinPlus_cons₂ p _ (by simp),
      List.getLast?_append_of_ne_nil p (by simp)]
    have h2 : joinPlus (rest ++ [k]) ≠ [] := joinPlus_last_ne_nil rest k hk
    have h3 : ('+' :: joinPlus (rest ++ [k])) = ['+'] ++ joinPlus (rest ++ [k]) := rfl
    rw [h3, List.getLast?_append_of_ne_nil _ h2]
    exact ih

theorem splitOn_joinPlus (ps : List (List Char)) (hne : ps ≠ [])
    (hnp : ∀ q ∈ ps, '+' ∉ q) : (joinPlus ps).splitOn '+' = ps := by
  induction ps with
  | nil => exact absurd rfl hne
  | cons p rest ih =>
    cases hr : rest with
    | nil =>
      subst hr
      show (joinPlus [p]).splitOnP (· == '+') = [p]
      refine List.splitOnP_eq_single _ _ (fun x hx => ?_)
      intro hbeq
      have hx2 : x = '+' := by simpa using hbeq
      exact hnp p (by simp) (hx2 ▸ hx)
    | cons q qs =>
      rw [hr] at ih hnp
      rw [joinPlus_cons₂ p _ (by simp)]
      show (p ++ '+' :: joinPlus (q :: qs)).splitOnP (· == '+') = p :: q :: qs
      rw [List.splitOnP_first _ _ (fun x hx => by
          intro hbeq
          have hx2 : x = '+' := by simpa using hbeq
          exact hnp p (by simp) (hx2 ▸ hx)) '+' (by simp)]
      have := ih (by simp) (fun r hrm => hnp r (List.mem_cons_of_mem p hrm))
      simpa [List.splitOn] using this

theorem map_dashToPlus_id (l : List Char) (h : '-' ∉ l) : l.map dashToPlus = l := by
  induction l with
  | nil => rfl
  | cons x xs ih =>
    have hx : x ≠ '-' := fun hc => h (hc ▸ List.mem_cons_self x xs)
    rw [List.map_cons, ih (fun hc => h (List.mem_cons_of_mem x hc))]
    simp [dashToPlus, hx]

/-- `upper` commutes with `getLast?`. -/
theorem upper_getLast? (l : List Char) : (upper l).getLast? = l.getLast?.map upChar := by
  rw [← List.head?_reverse, upper, ← List.map_reverse, List.head?_map, List.head?_reverse]

/-- The modifier pieces of `format_hotkey` are among the four fixed
renderings. -/
theorem modPieces_mem (m : Mods) (q : List Char) (h : q ∈ modPieces m) :
    q = STR "Ctrl" ∨ q = STR "Alt" ∨ q = STR "Shift" ∨ q = STR "Win" := by
  unfold modPieces at h
  split_ifs at h <;> simp at h <;> tauto

/-- `format_hotkey` renders no modifier exactly for the empty modifier
set. -/
theorem modPieces_nil_iff (m : Mods) : modPieces m = [] ↔ m = noMods := by
  rcases m with ⟨c, a, s, w⟩
  cases c <;> cases a <;> cases s <;> cases w <;> simp [modPieces, noMods, STR]

/-- A string with the `GP:` marker starts with `G`. -/
theorem isPrefix_GP_head (l : List Char) (h : (STR "GP:").isPrefixOf l = true) :
    l.head? = some 'G' := by
  cases l with
  | nil => simp [STR, List.isPrefixOf] at h
  | cons x t =>
    simp only [STR] at h
    rw [List.isPrefixOf] at h
    simp only [Bool.and_eq_true, beq_iff_eq] at h
    simp [← h.1]

/-- Classifying a modifier token already present in the set is a no-op. -/
theorem modStep_compat (m : Mods) (e k : List Char) (hmod : isModName k = true)
    (hin : namedModIn k m = true) : modStep (m, e) k = (m, e) := by
  unfold namedModIn at hin
  unfold modStep
  split_ifs at hin ⊢ with h1 h2 h3 h4
  · rcases m with ⟨c, a, s, w⟩; simp_all
  · rcases m with ⟨c, a, s, w⟩; simp_all
  · rcases m with ⟨c, a, s, w⟩; simp_all
  · rcases m with ⟨c, a, s, w⟩; simp_all

/-- Classifying an unrecognized token replaces the key. -/
theorem modStep_nonmod (m : Mods) (e k : List Char) (hmod : isModName k = false) :
    modStep (m, e) k = (m, k) := by
  unfold modStep
  split_ifs with h1 h2 h3 h4
  · simp [isModName, h1] at hmod
  · simp [isModName, h2] at hmod
  · simp [isModName, h3] at hmod
  · simp [isModName, h4] at hmod
  · rfl

/-- The key component of the classification fold is either untouched or
one of the tokens. -/
theorem fold_key_mem_or_nil : ∀ (parts : List (List Char)) (mk : Mods × List Char),
    (parts.foldl modStep mk).2 = mk.2 ∨ (parts.foldl modStep mk).2 ∈ parts := by
  intro parts
  induction parts with
  | nil => intro mk; exact Or.inl rfl
  | cons p rest ih =>
    intro mk
    rw [List.foldl_cons]
    rcases ih (modStep mk p) with h | h
    · rw [h]
      unfold modStep
      split_ifs <;> first | exact Or.inl rfl | exact Or.inr (by simp)
    · exact Or.inr (List.mem_cons_of_mem p h)

/-- The key component of the classification fold is either untouched or
not a modifier name. -/
theorem fold_key_mod : ∀ (parts : List (List Char)) (mk : Mods × List Char),
    (parts.foldl modStep mk).2 = mk.2
    ∨ isModName ((parts.foldl modStep mk).2) = false := by
  intro parts
  induction parts with
  | nil => intro mk; exact Or.inl rfl
  | cons p rest ih =>
    intro mk
    rw [List.foldl_cons]
    rcases ih (modStep mk p) with h | h
    · rw [h]
      unfold modStep
      split_ifs with h1 h2 h3 h4
      · exact Or.inl rfl
      · exact Or.inl rfl
      · exact Or.inl rfl
      · exact Or.inl rfl
      · exact Or.inr (by simp [isModName, h1, h2, h3, h4])
    · exact Or.inr h


/-- The dash replacement never outputs a dash. -/
theorem dashToPlus_ne_dash (c : Char) : dashToPlus c ≠ '-' := by
  unfold dashToPlus
  split_ifs with h
  · decide
  · exact h

/-- Every normalized hotkey token is a well-formed key: no separators,
upper-case normal form, no whitespace at either end. -/
theorem hotkeyParts_good (s0 : List Char) (p : List Char) (h : p ∈ hotkeyParts s0) :
    goodKey p := by
  unfold hotkeyParts at h
  rcases List.mem_map.mp h with ⟨q, hq, rfl⟩
  have hqf := List.mem_filter.mp hq
  rcases List.mem_map.mp hqf.1 with ⟨r, hr, rfl⟩
  have hrplus : '+' ∉ r := by
    intro hc
    have := splitOnP_not_sep (· == '+') (s0.map dashToPlus) r (by simpa [List.splitOn] using hr) '+' hc
    simp at this
  have hrdash : '-' ∉ r := by
    intro hc
    have hmem := splitOnP_mem_subset (· == '+') (s0.map dashToPlus) r
      (by simpa [List.splitOn] using hr) '-' hc
    rcases List.mem_map.mp hmem with ⟨d, _, hd⟩
    exact dashToPlus_ne_dash d hd
  refine ⟨?_, ?_, upper_idem _, ?_, ?_⟩
  · exact upper_no_plus _ (fun hc => hrplus (trim_subset r '+' hc))
  · exact upper_no_dash _ (fun hc => hrdash (trim_subset r '-' hc))
  · intro c hc
    rw [upper, List.head?_map] at hc
    cases hh : (trim r).head? with
    | none => rw [hh] at hc; simp at hc
    | some d =>
      rw [hh] at hc
      simp at hc
      rw [← hc, upChar_ws]
      exact trim_head?_ws r d hh
  · intro c hc
    rw [upper_getLast?] at hc
    cases hh : (trim r).getLast? with
    | none => rw [hh] at hc; simp at hc
    | some d =>
      rw [hh] at hc
      simp at hc
      rw [← hc, upChar_ws]
      exact trim_getLast?_ws r d hh

/-- Invariants of every keyboard trigger `parse_hotkey` produces: an
empty symbol only comes with an empty modifier set, a nonempty symbol is
a well-formed token, and a symbol that is itself a modifier name has its
modifier recorded in the set. -/
theorem parse_kb_inv (s : List Char) (hkind : (parse_hotkey s).kind = .kb) :
    ((parse_hotkey s).sym = [] → (parse_hotkey s).mods = noMods)
    ∧ ((parse_hotkey s).sym ≠ [] → goodKey (parse_hotkey s).sym)
    ∧ (isModName (parse_hotkey s).sym = true →
      namedModIn (parse_hotkey s).sym (parse_hotkey s).mods = true) := by
  by_cases h1 : trim s = []
  · have hp : parse_hotkey s = ⟨.kb, noMods, []⟩ := by
      rw [parse_hotkey]; simp [h1]
    rw [hp]
    exact ⟨fun _ => rfl, fun h => absurd rfl h, fun h => absurd h (by decide)⟩
  · by_cases h2 : is_gamepad_hotkey (trim s) = true
    · exfalso
      rw [parse_hotkey] at hkind
      simp [h1, h2] at hkind
    · have h2f : is_gamepad_hotkey (trim s) = false := by simpa using h2
      have heq := parse_hotkey_kb_eq s h1 h2f
      by_cases h3 : ((hotkeyParts (trim s)).foldl modStep (noMods, [])).2 = []
        ∧ hotkeyParts (trim s) ≠ []
      · have hsym : (parse_hotkey s).sym = (hotkeyParts (trim s)).getLastD [] := by
          rw [heq]; exact if_pos h3
        have hmods : (parse_hotkey s).mods
            = ((hotkeyParts (trim s)).foldl modStep (noMods, [])).1 := by
          rw [heq]
        have hmem : (hotkeyParts (trim s)).getLastD [] ∈ hotkeyParts (trim s) :=
          getLastD_mem _ _ h3.2
        refine ⟨?_, ?_, ?_⟩
        · intro hnil
          exact absurd (hsym ▸ hnil) (hotkeyParts_mem_ne_nil _ _ hmem)
        · intro _
          rw [hsym]
          exact hotkeyParts_good _ _ hmem
        · intro hmod
          rw [hsym] at hmod ⊢
          rw [hmods]
          exact foldl_modStep_mem _ _ hmod (noMods, []) hmem
      · have hsym : (parse_hotkey s).sym
            = ((hotkeyParts (trim s)).foldl modStep (noMods, [])).2 := by
          rw [heq]; exact if_neg h3
        have hmods : (parse_hotkey s).mods
            = ((hotkeyParts (trim s)).foldl modStep (noMods, [])).1 := by
          rw [heq]
        refine ⟨?_, ?_, ?_⟩
        · intro hnil
          rw [hsym] at hnil
          have hparts : hotkeyParts (trim s) = [] := by
            rcases not_and_or.mp h3 with hc | hc
            · exact absurd hnil hc
            · simpa using hc
          rw [hmods, hparts]
          rfl
        · intro hne
          rw [hsym] at hne ⊢
          rcases fold_key_mem_or_nil (hotkeyParts (trim s)) (noMods, []) with hc | hc
          · exact absurd hc hne
          · exact hotkeyParts_good _ _ hc
        · intro hmod
          rw [hsym] at hmod
          rcases fold_key_mod (hotkeyParts (trim s)) (noMods, []) with hc | hc
          · rw [hc] at hmod
            exact absurd hmod (by decide)
          · rw [hc] at hmod
            exact absurd hmod (by simp)

/-- The round-trip core: formatting-then-parsing is the identity on any
(modifier set, symbol) pair satisfying the parse invariants, provided the
pair is not an unmodified symbol that starts with the `GP:` marker. -/
theorem roundtrip_core (m : Mods) (k : List Char)
    (hk0 : k = [] → m = noMods)
    (hgood : k ≠ [] → goodKey k)
    (hcompat : isModName k = true → namedModIn k m = true)
    (hgp : ¬(m = noMods ∧ (STR "GP:").isPrefixOf k = true)) :
    parse_hotkey (format_hotkey m k) = ⟨.kb, m, k⟩ := by
  by_cases hknil : k = []
  · subst hknil
    rw [hk0 rfl]
    decide
  · obtain ⟨hplus, hdash, hupk, hhead, hlast⟩ := hgood hknil
    have hkemp : k.isEmpty = false := by
      cases k with
      | nil => exact absurd rfl hknil
      | cons a t => rfl
    have hfmt : format_hotkey m k = joinPlus (modPieces m ++ [k]) := by
      rw [format_hotkey]
      simp only [hupk, hkemp, Bool.false_eq_true, if_false, ite_false]
    have hpieceK : ∀ q ∈ modPieces m ++ [k], '+' ∉ q := by
      intro q hq
      rcases List.mem_append.mp hq with hq | hq
      · rcases modPieces_mem m q hq with rfl | rfl | rfl | rfl <;> decide
      · simp at hq; rw [hq]; exact hplus
    have hpieceD : ∀ q ∈ modPieces m ++ [k], '-' ∉ q := by
      intro q hq
      rcases List.mem_append.mp hq with hq | hq
      · rcases modPieces_mem m q hq with rfl | rfl | rfl | rfl <;> decide
      · simp at hq; rw [hq]; exact hdash
    have hpieceNe : ∀ q ∈ modPieces m ++ [k], q ≠ [] := by
      intro q hq
      rcases List.mem_append.mp hq with hq | hq
      · rcases modPieces_mem m q hq with rfl | rfl | rfl | rfl <;> decide
      · simp at hq; rw [hq]; exact hknil
    have hpieceTrim : ∀ q ∈ modPieces m ++ [k], trim q = q := by
      intro q hq
      rcases List.mem_append.mp hq with hq | hq
      · rcases modPieces_mem m q hq with rfl | rfl | rfl | rfl <;> decide
      · simp at hq; rw [hq]; exact trim_eq_self k hhead hlast
    have hfhead : ∀ c, (joinPlus (modPieces m ++ [k])).head? = some c →
        c.isWhitespace = false := by
      intro c hc
      cases hmp : modPieces m with
      | nil =>
        rw [hmp] at hc
        simp only [List.nil_append] at hc
        exact hhead c hc
      | cons p rest =>
        have hp4 := modPieces_mem m p (hmp ▸ List.mem_cons_self p rest)
        have hpne : p ≠ [] := by rcases hp4 with rfl | rfl | rfl | rfl <;> decide
        rw [hmp, List.cons_append, joinPlus_head? p _ hpne] at hc
        rcases hp4 with rfl | rfl | rfl | rfl <;>
          (simp only [STR] at hc; simp at hc; rw [← hc]) <;> decide
    have hflast : ∀ c, (joinPlus (modPieces m ++ [k])).getLast? = some c →
        c.isWhitespace = false := by
      intro c hc
      rw [joinPlus_getLast? _ k hknil] at hc
      exact hlast c hc
    have htrim : trim (joinPlus (modPieces m ++ [k])) = joinPlus (modPieces m ++ [k]) :=
      trim_eq_self _ hfhead hflast
    have hne : joinPlus (modPieces m ++ [k]) ≠ [] := joinPlus_last_ne_nil _ k hknil
    have hgpf : is_gamepad_hotkey (joinPlus (modPieces m ++ [k])) = false := by
      rw [is_gamepad_hotkey, htrim]
      by_contra hcon
      have hcon2 : (STR "GP:").isPrefixOf (upper (joinPlus (modPieces m ++ [k]))) = true := by
        simpa using hcon
      cases hmp : modPieces m with
      | nil =>
        have hm : m = noMods := (modPieces_nil_iff m).mp hmp
        rw [hmp] at hcon2
        simp only [List.nil_append] at hcon2
        rw [show joinPlus [k] = k from rfl, hupk] at hcon2
        exact hgp ⟨hm, hcon2⟩
      | cons p rest =>
        have hhd := isPrefix_GP_head _ hcon2
        rw [upper, List.head?_map] at hhd
        have hp4 := modPieces_mem m p (hmp ▸ List.mem_cons_self p rest)
        have hpne : p ≠ [] := by rcases hp4 with rfl | rfl | rfl | rfl <;> decide
        rw [hmp, List.cons_append, joinPlus_head? p _ hpne] at hhd
        rcases hp4 with rfl | rfl | rfl | rfl <;> exact absurd hhd (by decide)
    have hparts : hotkeyParts (trim (joinPlus (modPieces m ++ [k])))
        = (modPieces m).map upper ++ [k] := by
      rw [htrim]
      unfold hotkeyParts
      have hnd : '-' ∉ joinPlus (modPieces m ++ [k]) := by
        intro hc
        rcases joinPlus_mem _ _ hc with hc2 | ⟨q, hq, hc3⟩
        · exact absurd hc2 (by decide)
        · exact hpieceD q hq hc3
      rw [map_dashToPlus_id _ hnd]
      rw [splitOn_joinPlus _ (by simp) hpieceK]
      have hmt : (modPieces m ++ [k]).map trim = modPieces m ++ [k] :=
        (List.map_congr_left fun q hq => hpieceTrim q hq).trans (List.map_id _)
      rw [hmt]
      have hft : (modPieces m ++ [k]).filter (fun p => !p.isEmpty) = modPieces m ++ [k] := by
        rw [List.filter_eq_self]
        intro q hq
        have hne2 := hpieceNe q hq
        cases q with
        | nil => exact absurd rfl hne2
        | cons a t => rfl
      rw [hft, List.map_append]
      simp [hupk]
    have hparse := parse_hotkey_kb_eq (joinPlus (modPieces m ++ [k]))
      (by rw [htrim]; exact hne) (by rw [htrim]; exact hgpf)
    rw [hfmt, hparse, hparts, List.foldl_append]
    have hfold1 : ((modPieces m).map upper).foldl modStep (noMods, []) = (m, []) := by
      rcases m with ⟨c, a, s, w⟩
      cases c <;> cases a <;> cases s <;> cases w <;> decide
    rw [hfold1]
    by_cases hmod : isModName k = true
    · have hstep : [k].foldl modStep (m, []) = (m, []) := by
        rw [List.foldl_cons, List.foldl_nil, modStep_compat m [] k hmod (hcompat hmod)]
      rw [hstep]
      have hite : (if ((m, ([] : List Char)).2 = [] ∧ (modPieces m).map upper ++ [k] ≠ [])
          then ((modPieces m).map upper ++ [k]).getLastD [] else (m, ([] : List Char)).2)
          = k := by
        rw [if_pos ⟨rfl, by simp⟩]
        exact List.getLastD_concat _ _ _
      rw [hite]
    · have hmodf : isModName k = false := by simpa using hmod
      have hstep : [k].foldl modStep (m, []) = (m, k) := by
        rw [List.foldl_cons, List.foldl_nil, modStep_nonmod m [] k hmodf]
      rw [hstep]
      have hite : (if ((m, k).2 = [] ∧ (modPieces m).map upper ++ [k] ≠ [])
          then ((modPieces m).map upper ++ [k]).getLastD [] else (m, k).2) = k := by
        rw [if_neg]
        intro hcon
        exact hknil hcon.1
      rw [hite]

/-- C1, amended: for every keyboard Trigger produced by `parse_hotkey`,
except one with an empty modifier set whose symbol starts with `GP:`,
parsing the formatted rendering reproduces the Trigger exactly — same
kind, same modifier set, same symbol.  Controller triggers do not round
trip (their spec-defined bare-symbol rendering re-parses as a keyboard
trigger), and neither does the excepted keyboard shape. -/
theorem parse_format_roundtrip (s : List Char)
    (hkind : (parse_hotkey s).kind = .kb)
    (hgp : ¬((parse_hotkey s).mods = noMods
      ∧ (STR "GP:").isPrefixOf (parse_hotkey s).sym = true)) :
    parse_hotkey (format_hotkey (parse_hotkey s).mods (parse_hotkey s).sym)
      = parse_hotkey s := by
  obtain ⟨h1, h2, h3⟩ := parse_kb_inv s hkind
  rw [roundtrip_core (parse_hotkey s).mods (parse_hotkey s).sym h1 h2 h3 hgp, ← hkind]

/-- C1 counterexample: the Trigger parsed from `GP:A` formats (per the
spec's bare-symbol controller rendering) to `A`, which re-parses as a
keyboard trigger; and the keyboard Trigger parsed from `+GP:X` formats
via the source's `format_hotkey` to `GP:X`, which re-parses as a
controller trigger.  Both refute `parse(format(t)) = t` as stated. -/
theorem roundtrip_counterexample :
    parse_hotkey (formatTrigger (parse_hotkey (STR "GP:A"))) ≠ parse_hotkey (STR "GP:A")
    ∧ parse_hotkey (format_hotkey (parse_hotkey (STR "+GP:X")).mods
        (parse_hotkey (STR "+GP:X")).sym) ≠ parse_hotkey (STR "+GP:X") :=
  ⟨by decide, by decide⟩

/-- C1 witness: the Trigger parsed from `Ctrl+H` round-trips. -/
theorem parse_format_roundtrip_witness :
    parse_hotkey (format_hotkey (parse_hotkey (STR "Ctrl+H")).mods
      (parse_hotkey (STR "Ctrl+H")).sym) = parse_hotkey (STR "Ctrl+H") :=
  parse_format_roundtrip (STR "Ctrl+H") (by decide) (by decide)

end ProSuite
